import Mathlib

/-
  Verification of the pjtools configuration object (Tree Node) against its
  natural-language specification.

  The development shallowly embeds the Python sources:
    - pjtools/configurator/base.py        (BaseConfigurator)
    - pjtools/configurator/configurator.py (PyConfigurator.fromfile and friends)
    - pjtools/configurator/dumper.py       (the three registered dumpers)
    - pjtools/registry/registry.py         (Registry)

  Two models are used:
    - a pure, value-level model (namespace PJTools) in which a configurator
      is its `__dict__`: a list of (field name, value) pairs in insertion
      order, exactly mirroring a Python dict.  All functional claims are
      settled against this model.
    - a heap model (namespace PJHeap) in which configurator objects live at
      addresses in a store and field values may hold references, used for the
      frame/aliasing claim about the in-place `merge`.
-/

namespace PJTools

/--
A Python value as it can appear in a configurator field: null (None),
number, string, boolean, a sequence, a raw dict (not promoted), or a
nested BaseConfigurator (vnode).  A raw dict and a node both carry an
ordered association list of fields, mirroring a Python dict.
-/
inductive Value where
  | vnull : Value
  | vint (n : Int) : Value
  | vstr (s : String) : Value
  | vbool (b : Bool) : Value
  | vlist (xs : List Value) : Value
  | vdict (fs : List (String × Value)) : Value
  | vnode (fs : List (String × Value)) : Value

/-- The field list of a configurator object: its `__dict__`. -/
abbrev Fields := List (String × Value)

/-- `d.get(key, None)` membership part: first binding of a key, as Python
dicts have unique keys the first binding is the binding. -/
def lookupF : Fields → String → Option Value
  | [], _ => none
  | (k, v) :: rest, key => if k = key then some v else lookupF rest key

/-- `d[key] = value` on a Python dict: replace the value in place if the key
is present, otherwise append the new binding at the end (insertion order). -/
def setKey : Fields → String → Value → Fields
  | [], key, value => [(key, value)]
  | (k, v) :: rest, key, value =>
    if k = key then (key, value) :: rest else (k, v) :: setKey rest key value

/--
`BaseConfigurator._load_from_dict` (base.py lines 97-107): store each entry,
first wrapping raw dict values into a fresh `BaseConfigurator` (which
recursively converts, and whose `__init__` then appends its
`_is_initialized = True` marker).
-/
def loadFromDict : Fields → Fields
  | [] => []
  | (k, Value.vdict d) :: rest =>
      (k, Value.vnode (setKey (loadFromDict d) "_is_initialized" (Value.vbool true)))
        :: loadFromDict rest
  | (k, v) :: rest => (k, v) :: loadFromDict rest

/--
`BaseConfigurator.__init__` (base.py lines 43-62, non-singleton path): load
the given dict (an empty or missing dict loads nothing, which coincides with
`loadFromDict []`), then set `self._is_initialized = True`.
The resulting field list is the `__dict__` of the new object.
-/
def mkNode (d : Fields) : Fields :=
  setKey (loadFromDict d) "_is_initialized" (Value.vbool true)

/-- `BaseConfigurator.__getitem__` / `__getattr__` (base.py lines 109-138):
`self.__dict__.get(key, None)` - the None default is the absent marker. -/
def getItem (fs : Fields) (key : String) : Value :=
  (lookupF fs key).getD Value.vnull

/-- `BaseConfigurator.__setitem__` / `__setattr__` (base.py lines 120-147):
`self.__dict__[key] = value`, storing the value as given. -/
def setItem (fs : Fields) (key : String) (value : Value) : Fields :=
  setKey fs key value

/-- `dict.update` as used in `merge`: `self.__dict__[key].update(value)` -
every binding of the second dict is written into the first, overwriting
same-named keys and appending new ones.  Values are taken wholesale. -/
def updateDict : Fields → Fields → Fields
  | d1, [] => d1
  | d1, (k, v) :: rest => updateDict (setKey d1 k v) rest

/--
`BaseConfigurator.merge` (base.py lines 183-202), value-level: walk the
fields of the source in order; skip None values; copy values at keys the
target lacks; shallow-update when both sides hold raw dicts; recursively
merge when both sides hold configurators; otherwise overwrite.
-/
def mergeF : Fields → Fields → Fields
  | t, [] => t
  | t, (k, v) :: rest =>
    match lookupF t k, v with
    | _, Value.vnull => mergeF t rest
    | none, _ => mergeF (setKey t k v) rest
    | some (Value.vdict d1), Value.vdict d2 =>
        mergeF (setKey t k (Value.vdict (updateDict d1 d2))) rest
    | some (Value.vnode n1), Value.vnode n2 =>
        mergeF (setKey t k (Value.vnode (mergeF n1 n2))) rest
    | some _, _ => mergeF (setKey t k v) rest
termination_by t s => sizeOf s
decreasing_by all_goals simp_wf <;> omega

/-- The body of one iteration of the merge loop, factored out of `mergeF`:
how the target object changes when field `(k, v)` of the source is
processed. -/
def mergeStep (t : Fields) (k : String) (v : Value) : Fields :=
  match lookupF t k, v with
  | _, Value.vnull => t
  | none, _ => setKey t k v
  | some (Value.vdict d1), Value.vdict d2 =>
      setKey t k (Value.vdict (updateDict d1 d2))
  | some (Value.vnode n1), Value.vnode n2 =>
      setKey t k (Value.vnode (mergeF n1 n2))
  | some _, _ => setKey t k v

/--
`BaseConfigurator.to_dict` (base.py lines 204-214): skip the
`_is_initialized` bookkeeping key, recursively convert nested configurators
to plain mappings, and pass every other value through unchanged.
-/
def toDict : Fields → Fields
  | [] => []
  | (k, Value.vnode fs) :: rest =>
    if k = "_is_initialized" then toDict rest
    else (k, Value.vdict (toDict fs)) :: toDict rest
  | (k, v) :: rest =>
    if k = "_is_initialized" then toDict rest
    else (k, v) :: toDict rest

/-- Key list of a field list. -/
def keysOf (fs : Fields) : List String := fs.map Prod.fst

/-- A scalar in the sense of the data model: number, string or boolean
(null is treated separately by the claims). -/
def isScalar : Value → Bool
  | Value.vint _ => true
  | Value.vstr _ => true
  | Value.vbool _ => true
  | _ => false

/-- Key membership test on a field list. -/
def hasKeyF (fs : Fields) (key : String) : Bool := (lookupF fs key).isSome

/-- `name.startswith('_')`: the first character is an underscore. -/
def startsWithUnderscore (s : String) : Bool :=
  match s.data with
  | [] => false
  | c :: _ => c = '_'

/--
`PyConfigurator._load_python_config` keeps only the module attributes whose
name does not start with an underscore (configurator.py lines 146-149).
-/
def pyFilter (l : Fields) : Fields := l.filter (fun p => !(startsWithUnderscore p.1))

/-- Insertion step of the alphabetical ordering `dir(config_module)` imposes
on the collected attribute names. -/
def insertAssign (p : String × Value) : Fields → Fields
  | [] => [p]
  | q :: rest =>
    match compare p.1 q.1 with
    | Ordering.gt => q :: insertAssign p rest
    | _ => p :: q :: rest

/-- `dir(config_module)` returns attribute names sorted alphabetically, so
the collected config dict lists its keys in sorted order. -/
def sortAssigns (l : Fields) : Fields := List.foldr insertAssign [] l

/-- Errors surfaced by the python-file loader. -/
inductive LoadErr where
  | notFound (name : String)
  | invalidBase
  | badBaseEntry
  | noFuel

/-- An abstract file system: maps a file name to the top-level assignments
of the python module stored there (in source order). -/
def FSys : Type := String → Option Fields

/--
`PyConfigurator.fromfile` normalisation of the `_base_` attribute
(configurator.py lines 100-104): absent or None means no bases, a non-list
value is wrapped into a one-element list.
-/
def baseEntries : Option Value → List Value
  | none => []
  | some Value.vnull => []
  | some (Value.vlist xs) => xs
  | some v => [v]

/--
The base-file loop of `PyConfigurator.fromfile` (configurator.py lines
106-111): load each base in order and merge it into the accumulator; a None
entry raises `ValueError('Invalid base_file: None')`.  An entry that is
neither a string nor None would crash inside `Path`; the model reports it
as a distinct error.
-/
def loadBases (load : String → Except LoadErr Fields) :
    List Value → Fields → Except LoadErr Fields
  | [], acc => Except.ok acc
  | Value.vnull :: _, _ => Except.error LoadErr.invalidBase
  | Value.vstr b :: rest, acc =>
    match load b with
    | Except.error e => Except.error e
    | Except.ok c => loadBases load rest (mergeF acc c)
  | _ :: _, _ => Except.error LoadErr.badBaseEntry

/--
`PyConfigurator.fromfile` (configurator.py lines 87-116): read the module,
extract `_base_`, load and merge the bases left to right into a fresh empty
configurator, then merge the current file fields (underscore names dropped,
names alphabetised by `dir`) on top.  Recursion is bounded by fuel; the
Python original would not terminate on cyclic base chains either.
-/
def fromfile : Nat → FSys → String → Except LoadErr Fields
  | 0, _, _ => Except.error LoadErr.noFuel
  | fuel+1, fsys, name =>
    match fsys name with
    | none => Except.error (LoadErr.notFound name)
    | some assigns =>
      match loadBases (fromfile fuel fsys)
          (baseEntries (lookupF assigns "_base_")) (mkNode []) with
      | Except.error e => Except.error e
      | Except.ok baseCfg =>
        Except.ok (mergeF baseCfg (mkNode (sortAssigns (pyFilter assigns))))

/--
`Registry` (registry/registry.py): a category name and the registered
modules.  An entry maps a name to the registered handle; the handle is
wrapped in `Option` so that the (never occurring) registration of a None
handle stays expressible, which is what the None test in
`BaseConfigurator.dumpfile` guards against.
-/
structure Registry (M : Type) where
  category : String
  modules : List (String × Option M)

/-- First-match association lookup used by the registry model. -/
def regLookup {M : Type} : List (String × Option M) → String → Option (Option M)
  | [], _ => none
  | (k, m) :: rest, key => if k = key then some m else regLookup rest key

/-- The error `Registry.get` raises on a missing name: a `KeyError`. -/
inductive RegErr where
  | keyError (msg : String)

/--
`Registry.get` (registry/registry.py lines 57-72): raise
`KeyError('Module NAME not found in CATEGORY.')` when the name is not
registered, otherwise return the registered handle.
-/
def Registry.get {M : Type} (r : Registry M) (name : String) :
    Except RegErr (Option M) :=
  match regLookup r.modules name with
  | none => Except.error (RegErr.keyError
      ("Module " ++ name ++ " not found in " ++ r.category ++ "."))
  | some m => Except.ok m

/-- The file a dumper writes, reduced to the mapping it serialises.  The
on-disk json/yaml/py encodings are external serialisers, out of scope;
each is modelled as the identity on the mapping, tagged by format. -/
inductive DumpedFile where
  | jsonFile (data : Fields)
  | yamlFile (data : Fields)
  | pyFile (assigns : Fields)

/-- `json_dumper` (dumper.py lines 9-21): `json.dump` of the mapping. -/
def json_dumper (data : Fields) : DumpedFile := DumpedFile.jsonFile data

/-- `yaml_dumper` (dumper.py lines 24-36): `yaml.dump` of the mapping. -/
def yaml_dumper (data : Fields) : DumpedFile := DumpedFile.yamlFile data

/-- `py_dumper` (dumper.py lines 39-52): writes one `key = repr(value)`
line per mapping entry, i.e. a python module with those assignments. -/
def py_dumper (data : Fields) : DumpedFile := DumpedFile.pyFile data

/-- Modelled from the spec: the registry instances live in
`pjtools/registries.py`, which is not under src (only imported by
dumper.py and configurator.py); per the spec the dumper registry is a
Registry holding the serialisers for the json, yaml and py format tags,
which dumper.py registers through the `Registry.register` decorator. -/
def DUMPER_REGISTRY : Registry (Fields → DumpedFile) :=
  { category := "dumper",
    modules := [("json", some json_dumper), ("yaml", some yaml_dumper),
                ("py", some py_dumper)] }

/-- Errors reachable from `BaseConfigurator.dumpfile`. -/
inductive DumpErr where
  | registryKeyError (msg : String)
  | unsupportedFormat (msg : String)

/--
`BaseConfigurator.dumpfile` (base.py lines 168-181): convert to the mapping
form, look the format up in the dumper registry (which raises `KeyError`
for an unknown tag), raise `ValueError('Unsupported format: ...')` if the
lookup produced None, else write through the dumper.
-/
def dumpfile (conf : Fields) (fmt : String) : Except DumpErr DumpedFile :=
  let data := toDict conf
  match DUMPER_REGISTRY.get fmt with
  | Except.error (RegErr.keyError msg) => Except.error (DumpErr.registryKeyError msg)
  | Except.ok none =>
      Except.error (DumpErr.unsupportedFormat ("Unsupported format: " ++ fmt))
  | Except.ok (some dumper) => Except.ok (dumper data)

/-- `JSONConfigurator.fromfile` at the mapping level: `json.load` of a file
written by `json_dumper` returns the dumped mapping (external codec), and
the configurator is built from it. -/
def jsonLoad (data : Fields) : Fields := mkNode data

/-- `YAMLConfigurator.fromfile` at the mapping level: `yaml.safe_load` of a
file written by `yaml_dumper` returns the dumped mapping (external codec),
and the configurator is built from it. -/
def yamlLoad (data : Fields) : Fields := mkNode data

/-- Loading back a file written by `py_dumper`: executing the module yields
exactly the dumped assignments, which `PyConfigurator.fromfile` then
processes. -/
def pyLoad (fuel : Nat) (assigns : Fields) : Except LoadErr Fields :=
  fromfile fuel (fun n => if n = "dumped.py" then some assigns else none) "dumped.py"

mutual

/-- Well-formedness of a mapping for the round-trip claim: only
JSON-representable values (no configurator objects buried inside), and no
mapping anywhere carries the reserved `_is_initialized` key. -/
def cleanV : Value → Bool
  | Value.vnull => true
  | Value.vint _ => true
  | Value.vstr _ => true
  | Value.vbool _ => true
  | Value.vlist xs => cleanL xs
  | Value.vdict fs => !(hasKeyF fs "_is_initialized") && cleanFs fs
  | Value.vnode _ => false

/-- `cleanV` on every element of a list. -/
def cleanL : List Value → Bool
  | [] => true
  | v :: rest => cleanV v && cleanL rest

/-- `cleanV` on every value of a field list. -/
def cleanFs : Fields → Bool
  | [] => true
  | (_, v) :: rest => cleanV v && cleanFs rest

end

/-- The conversion `to_dict` applies to a single field value: a nested
configurator becomes its mapping, everything else passes through. -/
def convTop : Value → Value
  | Value.vnode fs => Value.vdict (toDict fs)
  | v => v

/-- `PyConfigurator.__init__` (configurator.py lines 72-85): initialise
from the dict, then set `self._base_ = base_files` when the list is
non-empty (an empty list is falsy and is not stored). -/
def pyConfigInit (d : Fields) (baseFiles : List String) : Fields :=
  if baseFiles.isEmpty then mkNode d
  else setKey (mkNode d) "_base_" (Value.vlist (baseFiles.map Value.vstr))

/-- The node loaded back in the py round-trip counterexample: the result
of dumping the mapping of a node with one explicitly null field to a
python file and loading that file again. -/
def c4CounterLoaded : Fields := (pyLoad 2 [("a", Value.vnull)]).toOption.getD []

/-- The base file of the worked inheritance example in the spec:
`{a: 1, b: {x: 10, y: 20}}`. -/
def baseFileAssigns : Fields :=
  [("a", Value.vint 1),
   ("b", Value.vdict [("x", Value.vint 10), ("y", Value.vint 20)])]

/-- The child file of the worked inheritance example in the spec:
`{b: {y: 21, z: 30}, c: 4}` with `_base_ = ['base.py']`. -/
def childFileAssigns : Fields :=
  [("b", Value.vdict [("y", Value.vint 21), ("z", Value.vint 30)]),
   ("c", Value.vint 4),
   ("_base_", Value.vlist [Value.vstr "base.py"])]

/-- The two-file file system of the worked inheritance example. -/
def exampleFS : FSys := fun n =>
  if n = "base.py" then some baseFileAssigns
  else if n = "child.py" then some childFileAssigns
  else none

/-- The configurator produced by loading the child file of the worked
inheritance example. -/
def exampleLoaded : Fields := (fromfile 3 exampleFS "child.py").toOption.getD []

end PJTools

/-
Heap model of `BaseConfigurator.merge`.  Python configurator objects are
mutable heap objects and `merge` edits its receiver in place, reading the
source through references; `self.__dict__[key] = value` copies references,
so distinct fields of one configurator may alias the same child object.
The heap model captures this: objects live at numeric addresses in a store,
and a field value may be a reference to another configurator object.
-/

namespace PJHeap

/-- A field value in the heap model: primitives, sequences, raw dicts
(inline) and references to configurator objects. -/
inductive HValue where
  | hnull : HValue
  | hint (n : Int) : HValue
  | hstr (s : String) : HValue
  | hbool (b : Bool) : HValue
  | hlist (xs : List HValue) : HValue
  | hdict (fs : List (String × HValue)) : HValue
  | href (a : Nat) : HValue

/-- The `__dict__` of one heap object. -/
abbrev HFields := List (String × HValue)

/-- The store: configurator objects by address; later bindings shadow
earlier ones, so a write is a prepend. -/
def Store : Type := List (Nat × HFields)

/-- Read the object at an address. -/
def getObj : Store → Nat → Option HFields
  | [], _ => none
  | (a, fs) :: rest, addr => if a = addr then some fs else getObj rest addr

/-- Overwrite the object at an address. -/
def setObj (σ : Store) (addr : Nat) (fs : HFields) : Store := (addr, fs) :: σ

/-- Python dict read, heap flavour. -/
def hLookup : HFields → String → Option HValue
  | [], _ => none
  | (k, v) :: rest, key => if k = key then some v else hLookup rest key

/-- Python dict write, heap flavour: replace in place or append. -/
def hSetKey : HFields → String → HValue → HFields
  | [], key, value => [(key, value)]
  | (k, v) :: rest, key, value =>
    if k = key then (key, value) :: rest else (k, v) :: hSetKey rest key value

/-- `dict.update`, heap flavour. -/
def hUpdateDict : HFields → HFields → HFields
  | d1, [] => d1
  | d1, (k, v) :: rest => hUpdateDict (hSetKey d1 k v) rest

/--
The field loop of `BaseConfigurator.merge` (base.py lines 189-202) over a
snapshot of the fields of the source object: skip None, plant missing keys
into the target object, shallow-update raw dicts, recurse through
references when both sides are configurator objects, else overwrite.
`mn` is the recursive merge entry point at the remaining fuel.
-/
def mergeFields (mn : Store → Nat → Nat → Option Store) (t : Nat) :
    Store → HFields → Option Store
  | σ, [] => some σ
  | σ, (k, v) :: rest =>
    match v with
    | HValue.hnull => mergeFields mn t σ rest
    | _ =>
      match getObj σ t with
      | none => none
      | some tf =>
        match hLookup tf k, v with
        | none, _ => mergeFields mn t (setObj σ t (hSetKey tf k v)) rest
        | some (HValue.hdict d1), HValue.hdict d2 =>
            mergeFields mn t (setObj σ t (hSetKey tf k (HValue.hdict (hUpdateDict d1 d2)))) rest
        | some (HValue.href a), HValue.href b =>
            match mn σ a b with
            | none => none
            | some σ2 => mergeFields mn t σ2 rest
        | some _, _ => mergeFields mn t (setObj σ t (hSetKey tf k v)) rest

/-- `BaseConfigurator.merge` in the heap model: read the fields of the
source object and run the merge loop on the target address.  Fuel bounds
the recursion depth. -/
def mergeNode : Nat → Store → Nat → Nat → Option Store
  | 0, _, _, _ => none
  | fuel+1, σ, t, s =>
    match getObj σ s with
    | none => none
    | some sf => mergeFields (mergeNode fuel) t σ sf

/-- The field loop of `BaseConfigurator.to_dict`, heap flavour: skip
`_is_initialized`, recursively convert referenced configurators, keep
every other value as is.  `td` converts one referenced object. -/
def toDictFields (td : Nat → Option HFields) : HFields → Option HFields
  | [] => some []
  | (k, v) :: rest =>
    if k = "_is_initialized" then toDictFields td rest
    else
      match v with
      | HValue.href a =>
        match td a, toDictFields td rest with
        | some m, some rr => some ((k, HValue.hdict m) :: rr)
        | _, _ => none
      | _ =>
        match toDictFields td rest with
        | some rr => some ((k, v) :: rr)
        | none => none

/-- `BaseConfigurator.to_dict` in the heap model. -/
def toDictH : Nat → Store → Nat → Option HFields
  | 0, _, _ => none
  | fuel+1, σ, a =>
    match getObj σ a with
    | none => none
    | some fs => toDictFields (toDictH fuel σ) fs

mutual

/-- All object references syntactically contained in a value, including
references buried inside raw dicts and sequences. -/
def refsOfV : HValue → List Nat
  | HValue.href a => [a]
  | HValue.hlist xs => refsOfL xs
  | HValue.hdict fs => refsOfF fs
  | _ => []

/-- `refsOfV` over a list of values. -/
def refsOfL : List HValue → List Nat
  | [] => []
  | v :: rest => refsOfV v ++ refsOfL rest

/-- `refsOfV` over the values of a field list. -/
def refsOfF : List (String × HValue) → List Nat
  | [] => []
  | (_, v) :: rest => refsOfV v ++ refsOfF rest

end

/-- Collect the address lists of a list of children, in order. -/
def addrChildren (al : Nat → Option (List Nat)) : List Nat → Option (List Nat)
  | [] => some []
  | a :: rest =>
    match al a, addrChildren al rest with
    | some xs, some ys => some (xs ++ ys)
    | _, _ => none

/-- The addresses of the substructure of an object, with multiplicity: the
object itself followed by the full address lists of all referenced
children in order.  Fails on a dangling reference or when the fuel does
not cover the depth (so it fails on reference cycles). -/
def addrList : Nat → Store → Nat → Option (List Nat)
  | 0, _, _ => none
  | fuel+1, σ, a =>
    match getObj σ a with
    | none => none
    | some fs =>
      match addrChildren (addrList fuel σ) (refsOfF fs) with
      | some ys => some (a :: ys)
      | none => none

/-- Every object named in a list of addresses exists and has distinct
field names (true of every Python `__dict__`). -/
def WFKeys (σ : Store) (l : List Nat) : Prop :=
  ∀ a ∈ l, ∀ fs, getObj σ a = some fs → (fs.map Prod.fst).Nodup

/-- The store of the aliasing counterexample.  It is the heap produced by
the Python statements
N = BaseConfigurator(); T = BaseConfigurator(); T.a = N; T.b = N;
S = BaseConfigurator on the raw mapping (a: (x: (u: 1)), b: (x: (r: 2))),
with T at address 0, N at 1, S at 2 and the nested nodes of S at 3-6. -/
def aliasStore : Store :=
  [ (0, [("_is_initialized", HValue.hbool true),
         ("a", HValue.href 1), ("b", HValue.href 1)]),
    (1, [("_is_initialized", HValue.hbool true)]),
    (2, [("a", HValue.href 3), ("b", HValue.href 5),
         ("_is_initialized", HValue.hbool true)]),
    (3, [("x", HValue.href 4), ("_is_initialized", HValue.hbool true)]),
    (4, [("u", HValue.hint 1), ("_is_initialized", HValue.hbool true)]),
    (5, [("x", HValue.href 6), ("_is_initialized", HValue.hbool true)]),
    (6, [("r", HValue.hint 2), ("_is_initialized", HValue.hbool true)]) ]

/-- The store after running `T.merge(S)` on the aliasing counterexample. -/
def aliasMerged : Store := (mergeNode 10 aliasStore 0 2).getD []

/-- A store with two disjoint, unaliased configurators: T at address 0
(child at 1) and S at address 2 (child at 3). -/
def frameStore : Store :=
  [ (0, [("_is_initialized", HValue.hbool true), ("p", HValue.href 1)]),
    (1, [("_is_initialized", HValue.hbool true)]),
    (2, [("p", HValue.href 3), ("q", HValue.hint 7),
         ("_is_initialized", HValue.hbool true)]),
    (3, [("w", HValue.hint 5), ("_is_initialized", HValue.hbool true)]) ]

/-- The store after running `T.merge(S)` on `frameStore`. -/
def frameMerged : Store := (mergeNode 5 frameStore 0 2).getD []

end PJHeap

/-
  Theorems.  General lemmas about the pure model first, then the claim
  theorems, then the heap development for the frame claim.
-/

namespace PJTools

theorem lookupF_setKey_self (fs : Fields) (k : String) (v : Value) :
    lookupF (setKey fs k v) k = some v := by
  induction fs with
  | nil => simp [setKey, lookupF]
  | cons p rest ih =>
    obtain ⟨k2, v2⟩ := p
    by_cases h : k2 = k
    · simp [setKey, h, lookupF]
    · simp [setKey, h, lookupF, ih]

theorem lookupF_setKey_ne (fs : Fields) (k k2 : String) (v : Value) (h : k2 ≠ k) :
    lookupF (setKey fs k2 v) k = lookupF fs k := by
  induction fs with
  | nil => simp [setKey, lookupF, h]
  | cons p rest ih =>
    obtain ⟨k3, v3⟩ := p
    by_cases h3 : k3 = k2
    · simp [setKey, h3, lookupF, h]
    · simp only [setKey, h3, if_false]
      by_cases h4 : k3 = k
      · simp [lookupF, h4]
      · simp [lookupF, h4, ih]

theorem lookupF_eq_none_iff (fs : Fields) (k : String) :
    lookupF fs k = none ↔ k ∉ keysOf fs := by
  induction fs with
  | nil => simp [lookupF, keysOf]
  | cons p rest ih =>
    obtain ⟨k2, v2⟩ := p
    by_cases h : k2 = k
    · simp [lookupF, h, keysOf]
    · simp [lookupF, h, keysOf, ih, Ne.symm h]

theorem toDict_cons (k : String) (v : Value) (rest : Fields) :
    toDict ((k, v) :: rest) =
      if k = "_is_initialized" then toDict rest
      else (k, convTop v) :: toDict rest := by
  cases v <;> simp [toDict, convTop]

/-- C6 (amended): `to_dict` removes exactly the `_is_initialized`
bookkeeping field and maps every other field through the recursive
node-to-mapping conversion; in particular a `_base_` field set on the node
is carried into the output, not excluded. -/
theorem claim_C6_to_dict_excludes_only_initialized :
    (∀ fs : Fields, lookupF (toDict fs) "_is_initialized" = none) ∧
    (∀ (fs : Fields) (k : String), k ≠ "_is_initialized" →
      lookupF (toDict fs) k = (lookupF fs k).map convTop) := by
  constructor
  · intro fs
    induction fs with
    | nil => simp [toDict, lookupF]
    | cons p rest ih =>
      obtain ⟨k2, v2⟩ := p
      rw [toDict_cons]
      by_cases h : k2 = "_is_initialized"
      · simp [h, ih]
      · simp [h, lookupF, ih]
  · intro fs k hk
    induction fs with
    | nil => simp [toDict, lookupF]
    | cons p rest ih =>
      obtain ⟨k2, v2⟩ := p
      rw [toDict_cons]
      by_cases h : k2 = "_is_initialized"
      · subst h
        simp [lookupF, Ne.symm hk, ih]
      · by_cases h2 : k2 = k
        · simp [h, lookupF, h2, hk]
        · simp [h, lookupF, h2, ih]

/-- C6, witness for the amended theorem. -/
theorem claim_C6_witness :
    ("a" ≠ "_is_initialized") ∧
    lookupF (toDict [("a", Value.vint 3)]) "a" =
      (lookupF [("a", Value.vint 3)] "a").map convTop := by
  refine ⟨by decide, ?_⟩
  exact claim_C6_to_dict_excludes_only_initialized.2 [("a", Value.vint 3)] "a" (by decide)

/-- C6, counterexample to the claim as stated: a node carrying the
base-files list does show `_base_` in its `to_dict` output. -/
theorem claim_C6_counter_base_in_to_dict :
    lookupF (toDict (pyConfigInit [("a", Value.vint 1)] ["b.py"])) "_base_"
      = some (Value.vlist [Value.vstr "b.py"]) := by
  simp [pyConfigInit, mkNode, loadFromDict, setKey, toDict, lookupF]

/-- C7: field access through the getter never fails: it returns the value
when the field exists and the absent marker None when it does not, and a
field explicitly set to None is indistinguishable from an absent field
through this accessor. -/
theorem claim_C7_get_never_errors :
    (∀ (fs : Fields) (k : String) (v : Value),
        lookupF fs k = some v → getItem fs k = v) ∧
    (∀ (fs : Fields) (k : String),
        lookupF fs k = none → getItem fs k = Value.vnull) ∧
    (∀ (fs : Fields) (k : String),
        lookupF fs k = none →
          getItem (setItem fs k Value.vnull) k = getItem fs k) := by
  refine ⟨?_, ?_, ?_⟩
  · intro fs k v h
    simp [getItem, h]
  · intro fs k h
    simp [getItem, h]
  · intro fs k h
    simp [getItem, setItem, lookupF_setKey_self, h]

/-- C7, witness. -/
theorem claim_C7_witness :
    lookupF [("a", Value.vint 1)] "a" = some (Value.vint 1) ∧
    getItem [("a", Value.vint 1)] "a" = Value.vint 1 ∧
    lookupF [("a", Value.vint 1)] "b" = none ∧
    getItem [("a", Value.vint 1)] "b" = Value.vnull ∧
    getItem (setItem [("a", Value.vint 1)] "b" Value.vnull) "b"
      = getItem [("a", Value.vint 1)] "b" := by
  refine ⟨by simp [lookupF], ?_, by simp [lookupF], ?_, ?_⟩
  · exact claim_C7_get_never_errors.1 _ _ _ (by simp [lookupF])
  · exact claim_C7_get_never_errors.2.1 _ _ (by simp [lookupF])
  · exact claim_C7_get_never_errors.2.2 _ _ (by simp [lookupF])

/-- C5 (amended): the setter stores every value as given - raw mappings
included - and silently overwrites; the mapping-to-node promotion happens
only when a configurator is constructed from a dict. -/
theorem claim_C5_set_stores_as_is :
    (∀ (fs : Fields) (k : String) (v : Value), getItem (setItem fs k v) k = v) ∧
    (∀ (fs : Fields) (k k2 : String) (v : Value), k ≠ k2 →
        getItem (setItem fs k v) k2 = getItem fs k2) ∧
    (∀ (k : String) (d rest : Fields),
        loadFromDict ((k, Value.vdict d) :: rest)
          = (k, Value.vnode (mkNode d)) :: loadFromDict rest) := by
  refine ⟨?_, ?_, ?_⟩
  · intro fs k v
    simp [getItem, setItem, lookupF_setKey_self]
  · intro fs k k2 v h
    simp [getItem, setItem, lookupF_setKey_ne fs k2 k v h]
  · intro k d rest
    simp [loadFromDict, mkNode]

/-- C5, witness for the amended theorem. -/
theorem claim_C5_witness :
    getItem (setItem [] "a" (Value.vint 7)) "a" = Value.vint 7 ∧
    ("a" ≠ "b") ∧
    getItem (setItem [("b", Value.vint 2)] "a" (Value.vint 7)) "b"
      = getItem [("b", Value.vint 2)] "b" := by
  refine ⟨claim_C5_set_stores_as_is.1 [] "a" (Value.vint 7), by decide, ?_⟩
  exact claim_C5_set_stores_as_is.2.1 [("b", Value.vint 2)] "a" "b" (Value.vint 7) (by decide)

/-- C5, counterexample to the claim as stated: setting a raw mapping
stores the raw mapping itself, not its promotion to a configurator node. -/
theorem claim_C5_counter_no_promotion :
    getItem (setItem (mkNode []) "a" (Value.vdict [("x", Value.vint 1)])) "a"
        = Value.vdict [("x", Value.vint 1)] ∧
    Value.vdict [("x", Value.vint 1)] ≠ Value.vnode (mkNode [("x", Value.vint 1)]) := by
  constructor
  · simp [mkNode, loadFromDict, setKey, setItem, getItem, lookupF]
  · intro h
    exact Value.noConfusion h

/-- C8: requesting a dump with an unregistered format tag fails inside
`Registry.get` with the KeyError for the missing registry name, before the
`Unsupported format` ValueError test in `dumpfile` can run, and nothing is
written. -/
theorem claim_C8_unregistered_format_keyerror :
    dumpfile (mkNode [("a", Value.vint 1)]) "bmp"
      = Except.error (DumpErr.registryKeyError "Module bmp not found in dumper.") := by
  rfl

end PJTools

namespace PJTools

theorem mergeF_nil (t : Fields) : mergeF t [] = t := by
  simp [mergeF]

theorem mergeF_cons (t : Fields) (k : String) (v : Value) (rest : Fields) :
    mergeF t ((k, v) :: rest) = mergeF (mergeStep t k v) rest := by
  rcases hv : v with _ | n | s | b | xs | d2 | n2 <;>
    rcases ht : lookupF t k with _ | (_ | tn | ts | tb | txs | td | tnn) <;>
      simp [mergeF, mergeStep, ht]

theorem mergeStep_null (t : Fields) (k : String) :
    mergeStep t k Value.vnull = t := by
  rcases ht : lookupF t k with _ | tv <;> simp [mergeStep, ht]

theorem mergeStep_lookup_ne (t : Fields) (k k2 : String) (v : Value) (h : k ≠ k2) :
    lookupF (mergeStep t k v) k2 = lookupF t k2 := by
  rcases hv : v with _ | n | s | b | xs | d2 | n2 <;>
    rcases ht : lookupF t k with _ | (_ | tn | ts | tb | txs | td | tnn) <;>
      simp [mergeStep, ht, lookupF_setKey_ne t k2 k _ h]

theorem mergeStep_scalar (t : Fields) (k : String) (v : Value)
    (hv : isScalar v = true) : mergeStep t k v = setKey t k v := by
  rcases v with _ | n | s | b | xs | d2 | n2 <;> simp [isScalar] at hv <;>
    rcases ht : lookupF t k with _ | (_ | tn | ts | tb | txs | td | tnn) <;>
      simp [mergeStep, ht]

theorem mergeStep_node (t : Fields) (k : String) (n1 n2 : Fields)
    (ht : lookupF t k = some (Value.vnode n1)) :
    mergeStep t k (Value.vnode n2) = setKey t k (Value.vnode (mergeF n1 n2)) := by
  simp [mergeStep, ht]

theorem mergeStep_dict (t : Fields) (k : String) (d1 d2 : Fields)
    (ht : lookupF t k = some (Value.vdict d1)) :
    mergeStep t k (Value.vdict d2) = setKey t k (Value.vdict (updateDict d1 d2)) := by
  simp [mergeStep, ht]

theorem lookupF_mergeF_absent (s : Fields) (k : String) :
    ∀ t : Fields, lookupF s k = none → lookupF (mergeF t s) k = lookupF t k := by
  induction s with
  | nil => intro t _; simp [mergeF_nil]
  | cons p rest ih =>
    intro t h
    obtain ⟨k2, v2⟩ := p
    simp only [lookupF] at h
    by_cases h2 : k2 = k
    · simp [h2] at h
    · rw [if_neg h2] at h
      rw [mergeF_cons, ih _ h, mergeStep_lookup_ne _ _ _ _ (fun he => h2 he)]

theorem lookupF_mergeF_null (s : Fields) (k : String) :
    ∀ t : Fields, (keysOf s).Nodup → lookupF s k = some Value.vnull →
      lookupF (mergeF t s) k = lookupF t k := by
  induction s with
  | nil => intro t _ h; simp [lookupF] at h
  | cons p rest ih =>
    intro t hnd h
    obtain ⟨k2, v2⟩ := p
    simp only [keysOf, List.map_cons, List.nodup_cons] at hnd
    simp only [lookupF] at h
    by_cases h2 : k2 = k
    · rw [if_pos h2] at h
      injection h with h
      subst h2 h
      rw [mergeF_cons, mergeStep_null]
      have hrest : lookupF rest k2 = none := by
        rw [lookupF_eq_none_iff]
        exact hnd.1
      exact lookupF_mergeF_absent rest k2 t hrest
    · rw [if_neg h2] at h
      rw [mergeF_cons, ih _ hnd.2 h, mergeStep_lookup_ne _ _ _ _ (fun he => h2 he)]

theorem lookupF_mergeF_scalar (s : Fields) (k : String) (v : Value) :
    ∀ t : Fields, (keysOf s).Nodup → lookupF s k = some v → isScalar v = true →
      lookupF (mergeF t s) k = some v := by
  induction s with
  | nil => intro t _ h _; simp [lookupF] at h
  | cons p rest ih =>
    intro t hnd h hv
    obtain ⟨k2, v2⟩ := p
    simp only [keysOf, List.map_cons, List.nodup_cons] at hnd
    simp only [lookupF] at h
    by_cases h2 : k2 = k
    · rw [if_pos h2] at h
      injection h with h
      subst h2 h
      rw [mergeF_cons, mergeStep_scalar t k2 v2 hv]
      have hrest : lookupF rest k2 = none := by
        rw [lookupF_eq_none_iff]
        exact hnd.1
      rw [lookupF_mergeF_absent rest k2 _ hrest, lookupF_setKey_self]
    · rw [if_neg h2] at h
      rw [mergeF_cons, ih _ hnd.2 h hv]

theorem lookupF_mergeF_node (s : Fields) (k : String) (n1 n2 : Fields) :
    ∀ t : Fields, (keysOf s).Nodup → lookupF t k = some (Value.vnode n1) →
      lookupF s k = some (Value.vnode n2) →
      lookupF (mergeF t s) k = some (Value.vnode (mergeF n1 n2)) := by
  induction s with
  | nil => intro t _ _ h; simp [lookupF] at h
  | cons p rest ih =>
    intro t hnd ht h
    obtain ⟨k2, v2⟩ := p
    simp only [keysOf, List.map_cons, List.nodup_cons] at hnd
    simp only [lookupF] at h
    by_cases h2 : k2 = k
    · rw [if_pos h2] at h
      injection h with h
      subst h2 h
      rw [mergeF_cons, mergeStep_node t k2 n1 n2 ht]
      have hrest : lookupF rest k2 = none := by
        rw [lookupF_eq_none_iff]
        exact hnd.1
      rw [lookupF_mergeF_absent rest k2 _ hrest, lookupF_setKey_self]
    · rw [if_neg h2] at h
      rw [mergeF_cons]
      refine ih _ hnd.2 ?_ h
      rw [mergeStep_lookup_ne _ _ _ _ (fun he => h2 he)]
      exact ht

theorem lookupF_mergeF_dict (s : Fields) (k : String) (d1 d2 : Fields) :
    ∀ t : Fields, (keysOf s).Nodup → lookupF t k = some (Value.vdict d1) →
      lookupF s k = some (Value.vdict d2) →
      lookupF (mergeF t s) k = some (Value.vdict (updateDict d1 d2)) := by
  induction s with
  | nil => intro t _ _ h; simp [lookupF] at h
  | cons p rest ih =>
    intro t hnd ht h
    obtain ⟨k2, v2⟩ := p
    simp only [keysOf, List.map_cons, List.nodup_cons] at hnd
    simp only [lookupF] at h
    by_cases h2 : k2 = k
    · rw [if_pos h2] at h
      injection h with h
      subst h2 h
      rw [mergeF_cons, mergeStep_dict t k2 d1 d2 ht]
      have hrest : lookupF rest k2 = none := by
        rw [lookupF_eq_none_iff]
        exact hnd.1
      rw [lookupF_mergeF_absent rest k2 _ hrest, lookupF_setKey_self]
    · rw [if_neg h2] at h
      rw [mergeF_cons]
      refine ih _ hnd.2 ?_ h
      rw [mergeStep_lookup_ne _ _ _ _ (fun he => h2 he)]
      exact ht

theorem lookupF_updateDict_miss (d2 : Fields) (j : String) :
    ∀ d1 : Fields, lookupF d2 j = none →
      lookupF (updateDict d1 d2) j = lookupF d1 j := by
  induction d2 with
  | nil => intro d1 _; simp [updateDict]
  | cons p rest ih =>
    intro d1 h
    obtain ⟨k, v⟩ := p
    simp only [lookupF] at h
    by_cases h2 : k = j
    · simp [h2] at h
    · rw [if_neg h2] at h
      rw [updateDict, ih _ h, lookupF_setKey_ne d1 j k v h2]

theorem lookupF_updateDict_hit (d2 : Fields) (j : String) (w : Value) :
    ∀ d1 : Fields, (keysOf d2).Nodup → lookupF d2 j = some w →
      lookupF (updateDict d1 d2) j = some w := by
  induction d2 with
  | nil => intro d1 _ h; simp [lookupF] at h
  | cons p rest ih =>
    intro d1 hnd h
    obtain ⟨k, v⟩ := p
    simp only [keysOf, List.map_cons, List.nodup_cons] at hnd
    simp only [lookupF] at h
    by_cases h2 : k = j
    · rw [if_pos h2] at h
      injection h with h
      subst h2 h
      have hrest : lookupF rest k = none := by
        rw [lookupF_eq_none_iff]
        exact hnd.1
      rw [updateDict, lookupF_updateDict_miss rest k _ hrest, lookupF_setKey_self]
    · rw [if_neg h2] at h
      rw [updateDict, ih _ hnd.2 h]

/-- C1: merge is right-biased with null skip.  A source field holding None
leaves the target field unchanged; a source field holding a non-null
scalar ends up in the target verbatim, whatever the target held before. -/
theorem claim_C1_merge_right_biased_null_skip :
    (∀ (t s : Fields) (k : String), (keysOf s).Nodup →
        lookupF s k = some Value.vnull →
        getItem (mergeF t s) k = getItem t k) ∧
    (∀ (t s : Fields) (k : String) (v : Value), (keysOf s).Nodup →
        lookupF s k = some v → isScalar v = true →
        getItem (mergeF t s) k = getItem s k) := by
  constructor
  · intro t s k hnd h
    simp [getItem, lookupF_mergeF_null s k t hnd h]
  · intro t s k v hnd h hv
    simp [getItem, lookupF_mergeF_scalar s k v t hnd h hv, h]

/-- C1, witness. -/
theorem claim_C1_witness :
    ((keysOf [("a", Value.vnull)]).Nodup ∧
      lookupF [("a", Value.vnull)] "a" = some Value.vnull ∧
      getItem (mergeF [("a", Value.vint 1)] [("a", Value.vnull)]) "a"
        = getItem [("a", Value.vint 1)] "a") ∧
    ((keysOf [("b", Value.vint 9)]).Nodup ∧
      lookupF [("b", Value.vint 9)] "b" = some (Value.vint 9) ∧
      isScalar (Value.vint 9) = true ∧
      getItem (mergeF [("b", Value.vint 1)] [("b", Value.vint 9)]) "b"
        = getItem [("b", Value.vint 9)] "b") := by
  refine ⟨⟨by simp [keysOf], by simp [lookupF], ?_⟩,
          ⟨by simp [keysOf], by simp [lookupF], by simp [isScalar], ?_⟩⟩
  · exact claim_C1_merge_right_biased_null_skip.1 _ _ "a"
      (by simp [keysOf]) (by simp [lookupF])
  · exact claim_C1_merge_right_biased_null_skip.2 _ _ "b" (Value.vint 9)
      (by simp [keysOf]) (by simp [lookupF]) (by simp [isScalar])

/-- C2: containers merge asymmetrically.  When both sides hold nested
configurator nodes at a key, the merged value is the recursive merge of
the two nodes by the same algorithm; when both sides hold raw mappings,
the incoming mapping is shallowly written over the existing one - an
incoming binding wins verbatim (nested mappings replaced wholesale, since
the incoming value is stored as is), and bindings the incoming mapping
lacks survive from the existing one. -/
theorem claim_C2_merge_container_asymmetry :
    (∀ (t s : Fields) (k : String) (n1 n2 : Fields), (keysOf s).Nodup →
        lookupF t k = some (Value.vnode n1) →
        lookupF s k = some (Value.vnode n2) →
        getItem (mergeF t s) k = Value.vnode (mergeF n1 n2)) ∧
    (∀ (t s : Fields) (k : String) (d1 d2 : Fields), (keysOf s).Nodup →
        lookupF t k = some (Value.vdict d1) →
        lookupF s k = some (Value.vdict d2) →
        getItem (mergeF t s) k = Value.vdict (updateDict d1 d2)) ∧
    (∀ (d1 d2 : Fields) (j : String) (w : Value), (keysOf d2).Nodup →
        lookupF d2 j = some w →
        lookupF (updateDict d1 d2) j = some w) ∧
    (∀ (d1 d2 : Fields) (j : String), lookupF d2 j = none →
        lookupF (updateDict d1 d2) j = lookupF d1 j) := by
  refine ⟨?_, ?_, ?_, ?_⟩
  · intro t s k n1 n2 hnd ht hs
    simp [getItem, lookupF_mergeF_node s k n1 n2 t hnd ht hs]
  · intro t s k d1 d2 hnd ht hs
    simp [getItem, lookupF_mergeF_dict s k d1 d2 t hnd ht hs]
  · intro d1 d2 j w hnd h
    exact lookupF_updateDict_hit d2 j w d1 hnd h
  · intro d1 d2 j h
    exact lookupF_updateDict_miss d2 j d1 h

/-- C2, witness. -/
theorem claim_C2_witness :
    ((keysOf [("a", Value.vnode [("y", Value.vint 2)])]).Nodup ∧
      getItem (mergeF [("a", Value.vnode [("x", Value.vint 1)])]
          [("a", Value.vnode [("y", Value.vint 2)])]) "a"
        = Value.vnode (mergeF [("x", Value.vint 1)] [("y", Value.vint 2)])) ∧
    ((keysOf [("d", Value.vdict [("y", Value.vint 2)])]).Nodup ∧
      getItem (mergeF [("d", Value.vdict [("x", Value.vint 1)])]
          [("d", Value.vdict [("y", Value.vint 2)])]) "d"
        = Value.vdict (updateDict [("x", Value.vint 1)] [("y", Value.vint 2)])) ∧
    lookupF (updateDict [("x", Value.vint 1)] [("y", Value.vint 2)]) "y"
      = some (Value.vint 2) ∧
    lookupF (updateDict [("x", Value.vint 1)] [("y", Value.vint 2)]) "x"
      = lookupF [("x", Value.vint 1)] "x" := by
  refine ⟨⟨by simp [keysOf], ?_⟩, ⟨by simp [keysOf], ?_⟩, ?_, ?_⟩
  · exact claim_C2_merge_container_asymmetry.1 _ _ "a" _ _
      (by simp [keysOf]) (by simp [lookupF]) (by simp [lookupF])
  · exact claim_C2_merge_container_asymmetry.2.1 _ _ "d" _ _
      (by simp [keysOf]) (by simp [lookupF]) (by simp [lookupF])
  · exact claim_C2_merge_container_asymmetry.2.2.1 _ _ "y" _
      (by simp [keysOf]) (by simp [lookupF])
  · exact claim_C2_merge_container_asymmetry.2.2.2 _ _ "x" (by simp [lookupF])

end PJTools

namespace PJTools

/-- C3: base files load in listed order and merge left to right into a
fresh configurator (later bases overriding earlier ones), then the current
file merges on top; on the worked example the child file with
(b: (y: 21, z: 30), c: 4) over the base (a: 1, b: (x: 10, y: 20)) yields
the mapping (a: 1, b: (x: 10, y: 21, z: 30), c: 4). -/
theorem claim_C3_base_inheritance_order :
    (∀ (fuel : Nat) (fsys : FSys) (name b1 b2 : String) (assigns c1 c2 : Fields),
        fsys name = some assigns →
        lookupF assigns "_base_" = some (Value.vlist [Value.vstr b1, Value.vstr b2]) →
        fromfile fuel fsys b1 = Except.ok c1 →
        fromfile fuel fsys b2 = Except.ok c2 →
        fromfile (fuel+1) fsys name = Except.ok
          (mergeF (mergeF (mergeF (mkNode []) c1) c2)
            (mkNode (sortAssigns (pyFilter assigns))))) ∧
    (fromfile 3 exampleFS "child.py" = Except.ok exampleLoaded ∧
      toDict exampleLoaded =
        [("a", Value.vint 1),
         ("b", Value.vdict [("x", Value.vint 10), ("y", Value.vint 21),
                            ("z", Value.vint 30)]),
         ("c", Value.vint 4)]) := by
  have hcmp1 : compare "b" "c" = Ordering.lt := rfl
  have hcmp2 : compare "a" "b" = Ordering.lt := rfl
  have hu1 : startsWithUnderscore "a" = false := rfl
  have hu2 : startsWithUnderscore "b" = false := rfl
  have hu3 : startsWithUnderscore "c" = false := rfl
  have hu4 : startsWithUnderscore "_base_" = true := rfl
  refine ⟨?_, ?_, ?_⟩
  · intro fuel fsys name b1 b2 assigns c1 c2 h hb h1 h2
    simp [fromfile, h, hb, baseEntries, loadBases, h1, h2]
  · simp [exampleLoaded, exampleFS, fromfile, baseFileAssigns, childFileAssigns,
      baseEntries, loadBases, lookupF, pyFilter, hu1, hu2, hu3, hu4,
      sortAssigns, insertAssign, hcmp1, hcmp2, mkNode, loadFromDict, setKey,
      mergeF, updateDict, Except.toOption]
  · simp [exampleLoaded, exampleFS, fromfile, baseFileAssigns, childFileAssigns,
      baseEntries, loadBases, lookupF, pyFilter, hu1, hu2, hu3, hu4,
      sortAssigns, insertAssign, hcmp1, hcmp2, mkNode, loadFromDict, setKey,
      mergeF, updateDict, Except.toOption, toDict]

/-- C3, witness for the general two-base part. -/
theorem claim_C3_witness :
    (fun fsW : FSys =>
      fromfile 2 fsW "c.py" = Except.ok
        (mergeF (mergeF (mergeF (mkNode [])
            (mergeF (mkNode []) (mkNode (sortAssigns (pyFilter [("x", Value.vint 1)])))))
            (mergeF (mkNode []) (mkNode (sortAssigns (pyFilter
              [("x", Value.vint 2), ("y", Value.vint 3)])))))
          (mkNode (sortAssigns (pyFilter
            [("_base_", Value.vlist [Value.vstr "a.py", Value.vstr "b.py"]),
             ("z", Value.vint 9)])))))
    (fun n =>
      if n = "a.py" then some [("x", Value.vint 1)]
      else if n = "b.py" then some [("x", Value.vint 2), ("y", Value.vint 3)]
      else if n = "c.py" then
        some [("_base_", Value.vlist [Value.vstr "a.py", Value.vstr "b.py"]),
              ("z", Value.vint 9)]
      else none) := by
  refine claim_C3_base_inheritance_order.1 1 _ "c.py" "a.py" "b.py" _ _ _
    (by simp) (by simp [lookupF]) ?_ ?_
  · simp [fromfile, lookupF, baseEntries, loadBases]
  · simp [fromfile, lookupF, baseEntries, loadBases]

/-- C9: a null base-files declaration means no bases and loading proceeds
normally; a single string is treated as a one-element base list; a null
entry inside the base list makes fromfile fail fast with the
invalid-reference error. -/
theorem claim_C9_base_declaration_handling :
    (∀ (fuel : Nat) (fsys : FSys) (name : String) (assigns : Fields),
        fsys name = some assigns →
        lookupF assigns "_base_" = some Value.vnull →
        fromfile (fuel+1) fsys name
          = Except.ok (mergeF (mkNode [])
              (mkNode (sortAssigns (pyFilter assigns))))) ∧
    (∀ b : String, baseEntries (some (Value.vstr b))
        = baseEntries (some (Value.vlist [Value.vstr b]))) ∧
    (∀ (fuel : Nat) (fsys : FSys) (name b : String) (assigns c : Fields),
        fsys name = some assigns →
        lookupF assigns "_base_" = some (Value.vstr b) →
        fromfile fuel fsys b = Except.ok c →
        fromfile (fuel+1) fsys name
          = Except.ok (mergeF (mergeF (mkNode []) c)
              (mkNode (sortAssigns (pyFilter assigns))))) ∧
    (∀ (fuel : Nat) (fsys : FSys) (name : String) (assigns : Fields)
        (rest : List Value),
        fsys name = some assigns →
        lookupF assigns "_base_" = some (Value.vlist (Value.vnull :: rest)) →
        fromfile (fuel+1) fsys name = Except.error LoadErr.invalidBase) := by
  refine ⟨?_, ?_, ?_, ?_⟩
  · intro fuel fsys name assigns h hb
    simp [fromfile, h, hb, baseEntries, loadBases]
  · intro b
    rfl
  · intro fuel fsys name b assigns c h hb hc
    simp [fromfile, h, hb, baseEntries, loadBases, hc]
  · intro fuel fsys name assigns rest h hb
    simp [fromfile, h, hb, baseEntries, loadBases]

/-- C9, witness. -/
theorem claim_C9_witness :
    (fun fsW : FSys =>
      fromfile 2 fsW "n.py" = Except.ok (mergeF (mkNode [])
          (mkNode (sortAssigns (pyFilter [("_base_", Value.vnull), ("z", Value.vint 9)])))) ∧
      fromfile 2 fsW "s.py" = Except.ok (mergeF (mergeF (mkNode [])
            (mergeF (mkNode []) (mkNode (sortAssigns (pyFilter [("x", Value.vint 1)])))))
          (mkNode (sortAssigns (pyFilter
            [("_base_", Value.vstr "a.py"), ("w", Value.vint 8)])))) ∧
      fromfile 2 fsW "bad.py" = Except.error LoadErr.invalidBase)
    (fun n =>
      if n = "a.py" then some [("x", Value.vint 1)]
      else if n = "n.py" then some [("_base_", Value.vnull), ("z", Value.vint 9)]
      else if n = "s.py" then
        some [("_base_", Value.vstr "a.py"), ("w", Value.vint 8)]
      else if n = "bad.py" then
        some [("_base_", Value.vlist [Value.vnull]), ("q", Value.vint 7)]
      else none) := by
  refine ⟨?_, ?_, ?_⟩
  · exact claim_C9_base_declaration_handling.1 1 _ "n.py" _ (by simp) (by simp [lookupF])
  · refine claim_C9_base_declaration_handling.2.2.1 1 _ "s.py" "a.py" _ _
      (by simp) (by simp [lookupF]) ?_
    simp [fromfile, lookupF, baseEntries, loadBases]
  · exact claim_C9_base_declaration_handling.2.2.2 1 _ "bad.py"
      [("_base_", Value.vlist [Value.vnull]), ("q", Value.vint 7)] []
      (by simp) (by simp [lookupF])

end PJTools

namespace PJTools

theorem lookupF_append (xs ys : Fields) (k : String) :
    lookupF (xs ++ ys) k =
      match lookupF xs k with
      | some v => some v
      | none => lookupF ys k := by
  induction xs with
  | nil => simp [lookupF]
  | cons p rest ih =>
    obtain ⟨k2, v2⟩ := p
    by_cases h : k2 = k
    · simp [lookupF, h]
    · simp [lookupF, h, ih]

theorem setKey_append_of_absent (fs : Fields) (k : String) (v : Value)
    (h : lookupF fs k = none) : setKey fs k v = fs ++ [(k, v)] := by
  induction fs with
  | nil => simp [setKey]
  | cons p rest ih =>
    obtain ⟨k2, v2⟩ := p
    simp only [lookupF] at h
    by_cases h2 : k2 = k
    · simp [h2] at h
    · rw [if_neg h2] at h
      simp [setKey, h2, ih h]

theorem setKey_eq_self_of_lookup (fs : Fields) (k : String) (v : Value)
    (h : lookupF fs k = some v) : setKey fs k v = fs := by
  induction fs with
  | nil => simp [lookupF] at h
  | cons p rest ih =>
    obtain ⟨k2, v2⟩ := p
    simp only [lookupF] at h
    by_cases h2 : k2 = k
    · rw [if_pos h2] at h
      injection h with h
      simp [setKey, h2, h]
    · rw [if_neg h2] at h
      simp [setKey, h2, ih h]

theorem keysOf_loadFromDict (d : Fields) : keysOf (loadFromDict d) = keysOf d := by
  induction d with
  | nil => simp [loadFromDict]
  | cons p rest ih =>
    obtain ⟨k, v⟩ := p
    cases v <;> simp [loadFromDict, keysOf] <;>
      simpa [keysOf] using ih

theorem toDict_append (fs gs : Fields) :
    toDict (fs ++ gs) = toDict fs ++ toDict gs := by
  induction fs with
  | nil => simp [toDict]
  | cons p rest ih =>
    obtain ⟨k, v⟩ := p
    rw [List.cons_append, toDict_cons, toDict_cons]
    by_cases h : k = "_is_initialized"
    · simp [h, ih]
    · simp [h, ih]

theorem mergeStep_absent (t : Fields) (k : String) (v : Value)
    (ht : lookupF t k = none) (hv : v ≠ Value.vnull) :
    mergeStep t k v = setKey t k v := by
  rcases v with _ | n | s | b | xs | d2 | n2
  · exact absurd rfl hv
  all_goals simp [mergeStep, ht]

theorem loadFromDict_no_null (e : Fields) (h : ∀ p ∈ e, p.2 ≠ Value.vnull) :
    ∀ p ∈ loadFromDict e, p.2 ≠ Value.vnull := by
  induction e with
  | nil => simp [loadFromDict]
  | cons q rest ih =>
    obtain ⟨k, v⟩ := q
    have hrest := fun p hp => h p (List.mem_cons_of_mem _ hp)
    have hv := h (k, v) (List.mem_cons_self _ _)
    intro p hp
    cases v
    case vnull => exact absurd rfl hv
    case vdict d =>
      simp only [loadFromDict] at hp
      rcases List.mem_cons.mp hp with h1 | h1
      · subst h1; simp
      · exact ih hrest p h1
    all_goals
      simp only [loadFromDict] at hp
    all_goals
      rcases List.mem_cons.mp hp with h1 | h1
    all_goals first
      | (subst h1; exact hv)
      | exact ih hrest p h1

theorem mergeF_fresh_append :
    ∀ (fs acc : Fields),
      (∀ p ∈ fs, p.2 ≠ Value.vnull) →
      (∀ p ∈ fs, lookupF acc p.1 = none) →
      (keysOf fs).Nodup →
      lookupF acc "_is_initialized" = some (Value.vbool true) →
      mergeF acc (fs ++ [("_is_initialized", Value.vbool true)]) = acc ++ fs := by
  intro fs
  induction fs with
  | nil =>
    intro acc _ _ _ hinit
    rw [List.nil_append, List.append_nil, mergeF_cons, mergeF_nil]
    have : mergeStep acc "_is_initialized" (Value.vbool true)
        = setKey acc "_is_initialized" (Value.vbool true) := by
      simp [mergeStep, hinit]
    rw [this, setKey_eq_self_of_lookup acc _ _ hinit]
  | cons p rest ih =>
    intro acc hnull hfresh hnd hinit
    obtain ⟨k, v⟩ := p
    have hv : v ≠ Value.vnull := hnull (k, v) (List.mem_cons_self _ _)
    have hk : lookupF acc k = none := hfresh (k, v) (List.mem_cons_self _ _)
    simp only [keysOf, List.map_cons, List.nodup_cons] at hnd
    rw [List.cons_append, mergeF_cons, mergeStep_absent acc k v hk hv,
      setKey_append_of_absent acc k v hk]
    rw [ih (acc ++ [(k, v)]) (fun p hp => hnull p (List.mem_cons_of_mem _ hp))
      ?_ hnd.2 ?_]
    · rw [List.append_assoc]
      rfl
    · intro p hp
      rw [lookupF_append]
      have hne : k ≠ p.1 := by
        intro he
        exact hnd.1 (he ▸ (List.mem_map.mpr ⟨p, hp, rfl⟩))
      rw [hfresh p (List.mem_cons_of_mem _ hp)]
      simp [lookupF, hne]
    · rw [lookupF_append, hinit]

end PJTools

namespace PJTools

theorem cleanFs_iff (fs : Fields) :
    cleanFs fs = true ↔ ∀ p ∈ fs, cleanV p.2 = true := by
  induction fs with
  | nil => simp [cleanFs]
  | cons p rest ih =>
    obtain ⟨k, v⟩ := p
    simp [cleanFs, Bool.and_eq_true, ih]

theorem hasKeyF_false_iff (fs : Fields) (k : String) :
    hasKeyF fs k = false ↔ lookupF fs k = none := by
  cases h : lookupF fs k <;> simp [hasKeyF, h]

theorem cleanV_vdict_iff (d : Fields) :
    cleanV (Value.vdict d) = true ↔
      (lookupF d "_is_initialized" = none ∧ cleanFs d = true) := by
  rw [cleanV, Bool.and_eq_true, Bool.not_eq_true', hasKeyF_false_iff]

theorem toDict_init_cons (v : Value) (rest : Fields) :
    toDict (("_is_initialized", v) :: rest) = toDict rest := by
  rw [toDict_cons, if_pos rfl]

theorem toDict_loadFromDict_aux :
    ∀ (m : Nat) (d : Fields), sizeOf d < m → cleanV (Value.vdict d) = true →
      toDict (loadFromDict d) = d := by
  intro m
  induction m with
  | zero => intro d hs _; exact absurd hs (Nat.not_lt_zero _)
  | succ m ih =>
    intro d hs hc
    match d with
    | [] => simp [loadFromDict, toDict]
    | (k, v) :: rest =>
      rw [cleanV_vdict_iff] at hc
      obtain ⟨hkey, hcfs⟩ := hc
      simp only [lookupF] at hkey
      have hkne : ¬ k = "_is_initialized" := by
        intro he; simp [he] at hkey
      rw [if_neg hkne] at hkey
      have hcv : cleanV v = true :=
        (cleanFs_iff _).mp hcfs (k, v) (List.mem_cons_self _ _)
      have hcrest : cleanV (Value.vdict rest) = true := by
        rw [cleanV_vdict_iff]
        exact ⟨hkey, (cleanFs_iff rest).mpr
          (fun p hp => (cleanFs_iff _).mp hcfs p (List.mem_cons_of_mem _ hp))⟩
      have hsrest : sizeOf rest < m := by
        simp only [List.cons.sizeOf_spec, Prod.mk.sizeOf_spec] at hs
        omega
      cases v with
      | vnode fs2 => simp [cleanV] at hcv
      | vdict d2 =>
        have hs2 : sizeOf d2 < m := by
          simp only [List.cons.sizeOf_spec, Prod.mk.sizeOf_spec,
            Value.vdict.sizeOf_spec] at hs
          omega
        have hd2init : lookupF (loadFromDict d2) "_is_initialized" = none := by
          rw [lookupF_eq_none_iff, keysOf_loadFromDict]
          rw [cleanV_vdict_iff] at hcv
          rw [← lookupF_eq_none_iff]
          exact hcv.1
        rw [loadFromDict, toDict_cons, if_neg hkne]
        have hset : setKey (loadFromDict d2) "_is_initialized" (Value.vbool true)
            = loadFromDict d2 ++ [("_is_initialized", Value.vbool true)] :=
          setKey_append_of_absent _ _ _ hd2init
        rw [hset]
        have hconv : convTop (Value.vnode
            (loadFromDict d2 ++ [("_is_initialized", Value.vbool true)]))
            = Value.vdict d2 := by
          rw [convTop, toDict_append, toDict_init_cons]
          simp [toDict, ih d2 hs2 hcv]
        rw [hconv, ih rest hsrest hcrest]
      | vnull =>
        simp only [loadFromDict]
        rw [toDict_cons, if_neg hkne, ih rest hsrest hcrest]
        simp [convTop]
      | vint n =>
        simp only [loadFromDict]
        rw [toDict_cons, if_neg hkne, ih rest hsrest hcrest]
        simp [convTop]
      | vstr s =>
        simp only [loadFromDict]
        rw [toDict_cons, if_neg hkne, ih rest hsrest hcrest]
        simp [convTop]
      | vbool b =>
        simp only [loadFromDict]
        rw [toDict_cons, if_neg hkne, ih rest hsrest hcrest]
        simp [convTop]
      | vlist xs =>
        simp only [loadFromDict]
        rw [toDict_cons, if_neg hkne, ih rest hsrest hcrest]
        simp [convTop]

theorem toDict_loadFromDict (d : Fields) (hc : cleanV (Value.vdict d) = true) :
    toDict (loadFromDict d) = d :=
  toDict_loadFromDict_aux (sizeOf d + 1) d (Nat.lt_succ_self _) hc

theorem toDict_mkNode (d : Fields) (hc : cleanV (Value.vdict d) = true) :
    toDict (mkNode d) = d := by
  have hlk : lookupF (loadFromDict d) "_is_initialized" = none := by
    rw [lookupF_eq_none_iff, keysOf_loadFromDict, ← lookupF_eq_none_iff]
    exact ((cleanV_vdict_iff d).mp hc).1
  rw [mkNode, setKey_append_of_absent _ _ _ hlk, toDict_append, toDict_init_cons]
  simp [toDict, toDict_loadFromDict d hc]

end PJTools

namespace PJTools

theorem insertAssign_perm (p : String × Value) (l : Fields) :
    (insertAssign p l).Perm (p :: l) := by
  induction l with
  | nil => simp [insertAssign]
  | cons q rest ih =>
    cases h : compare p.1 q.1 with
    | lt => simp [insertAssign, h]
    | eq => simp [insertAssign, h]
    | gt =>
      simp only [insertAssign, h]
      exact (ih.cons q).trans (List.Perm.swap p q rest)

theorem sortAssigns_perm (l : Fields) : (sortAssigns l).Perm l := by
  induction l with
  | nil => simp [sortAssigns]
  | cons p rest ih =>
    have h : sortAssigns (p :: rest) = insertAssign p (sortAssigns rest) := rfl
    rw [h]
    exact (insertAssign_perm p (sortAssigns rest)).trans (ih.cons p)

theorem lookupF_eq_of_perm {l1 l2 : Fields} (h : l1.Perm l2) :
    (keysOf l2).Nodup → ∀ k, lookupF l1 k = lookupF l2 k := by
  induction h with
  | nil => intro _ k; rfl
  | cons p h2 ih =>
    intro hnd k
    obtain ⟨k2, v2⟩ := p
    simp only [keysOf, List.map_cons, List.nodup_cons] at hnd
    by_cases he : k2 = k
    · simp [lookupF, he]
    · simp [lookupF, he, ih hnd.2 k]
  | swap x y l =>
    intro hnd k
    obtain ⟨k1, v1⟩ := x
    obtain ⟨k2, v2⟩ := y
    simp only [keysOf, List.map_cons, List.nodup_cons, List.mem_cons] at hnd
    have hne : k1 ≠ k2 := by
      intro he
      subst he
      simp at hnd
    by_cases h1 : k1 = k
    · subst h1
      simp [lookupF, Ne.symm hne, hne]
    · by_cases h2 : k2 = k
      · subst h2
        simp [lookupF, h1, hne]
      · simp [lookupF, h1, h2]
  | trans h12 h23 ih12 ih23 =>
    intro hnd k
    have hperm : (keysOf _).Perm (keysOf _) := h23.map Prod.fst
    have hnd2 : (keysOf _).Nodup := hperm.nodup_iff.mpr hnd
    rw [ih12 hnd2 k, ih23 hnd k]

theorem pyFilter_eq_self (d : Fields)
    (h : ∀ k ∈ keysOf d, startsWithUnderscore k = false) : pyFilter d = d := by
  rw [pyFilter, List.filter_eq_self]
  intro p hp
  simp [h p.1 (List.mem_map.mpr ⟨p, hp, rfl⟩)]

/-- C4 (amended): round-trips reproduce the mapping form for mappings of
JSON-representable values that avoid the reserved `_is_initialized` key in
nested mappings; for the py format the top-level field names must
additionally not begin with an underscore (the loader drops such module
attributes) and no top-level value may be null (merge drops null fields),
and the reloaded mapping is key-for-key equal (field order is alphabetised
by `dir`). -/
theorem claim_C4_roundtrip :
    ∀ n : Fields, cleanV (Value.vdict (toDict n)) = true →
      (toDict (jsonLoad (toDict n)) = toDict n) ∧
      (toDict (yamlLoad (toDict n)) = toDict n) ∧
      ((keysOf (toDict n)).Nodup →
        (∀ k ∈ keysOf (toDict n), startsWithUnderscore k = false) →
        (∀ p ∈ toDict n, p.2 ≠ Value.vnull) →
        ∃ r, pyLoad 2 (toDict n) = Except.ok r ∧
          ∀ k, lookupF (toDict r) k = lookupF (toDict n) k) := by
  intro n hc
  refine ⟨toDict_mkNode _ hc, toDict_mkNode _ hc, ?_⟩
  intro hnd hund hnn
  have hbase : lookupF (toDict n) "_base_" = none := by
    rw [lookupF_eq_none_iff]
    intro hmem
    exact absurd (hund _ hmem) (by decide)
  have hfilter : pyFilter (toDict n) = toDict n := pyFilter_eq_self _ hund
  refine ⟨mergeF (mkNode []) (mkNode (sortAssigns (toDict n))), ?_, ?_⟩
  · simp [pyLoad, fromfile, hbase, baseEntries, loadBases, hfilter]
  · have hperm : (sortAssigns (toDict n)).Perm (toDict n) := sortAssigns_perm _
    have hkeysperm : (keysOf (sortAssigns (toDict n))).Perm (keysOf (toDict n)) :=
      hperm.map Prod.fst
    have hnde : (keysOf (sortAssigns (toDict n))).Nodup := hkeysperm.nodup_iff.mpr hnd
    have hinitd : "_is_initialized" ∉ keysOf (toDict n) := by
      intro hmem
      exact absurd (hund _ hmem) (by decide)
    have hinite : "_is_initialized" ∉ keysOf (sortAssigns (toDict n)) :=
      fun hm => hinitd (hkeysperm.mem_iff.mp hm)
    have hlke : lookupF (loadFromDict (sortAssigns (toDict n))) "_is_initialized" = none := by
      rw [lookupF_eq_none_iff, keysOf_loadFromDict]
      exact hinite
    have hmk0 : mkNode [] = [("_is_initialized", Value.vbool true)] := by
      simp [mkNode, loadFromDict, setKey]
    have hnull2 : ∀ p ∈ loadFromDict (sortAssigns (toDict n)), p.2 ≠ Value.vnull := by
      refine loadFromDict_no_null _ ?_
      intro p hp
      exact hnn p (hperm.mem_iff.mp hp)
    have hfresh2 : ∀ p ∈ loadFromDict (sortAssigns (toDict n)),
        lookupF [("_is_initialized", Value.vbool true)] p.1 = none := by
      intro p hp
      have hpk : p.1 ∈ keysOf (sortAssigns (toDict n)) := by
        rw [← keysOf_loadFromDict]
        exact List.mem_map.mpr ⟨p, hp, rfl⟩
      have hne : p.1 ≠ "_is_initialized" := fun he => hinite (he ▸ hpk)
      simp [lookupF, Ne.symm hne]
    have hnd2 : (keysOf (loadFromDict (sortAssigns (toDict n)))).Nodup := by
      rw [keysOf_loadFromDict]
      exact hnde
    have hinit2 : lookupF [("_is_initialized", Value.vbool true)] "_is_initialized"
        = some (Value.vbool true) := by
      simp [lookupF]
    have hmerge : mergeF (mkNode []) (mkNode (sortAssigns (toDict n)))
        = ("_is_initialized", Value.vbool true) :: loadFromDict (sortAssigns (toDict n)) := by
      rw [hmk0, mkNode, setKey_append_of_absent _ _ _ hlke,
        mergeF_fresh_append _ _ hnull2 hfresh2 hnd2 hinit2]
      rfl
    have hce : cleanV (Value.vdict (sortAssigns (toDict n))) = true := by
      rw [cleanV_vdict_iff] at hc ⊢
      refine ⟨?_, ?_⟩
      · rw [lookupF_eq_none_iff]
        exact hinite
      · rw [cleanFs_iff]
        intro p hp
        exact (cleanFs_iff _).mp hc.2 p (hperm.mem_iff.mp hp)
    intro k
    rw [hmerge, toDict_init_cons, toDict_loadFromDict _ hce]
    exact lookupF_eq_of_perm hperm hnd k

/-- C4, witness for the amended round-trip theorem. -/
theorem claim_C4_witness :
    cleanV (Value.vdict (toDict (mkNode [("b", Value.vdict [("x", Value.vint 10)]),
      ("a", Value.vint 1)]))) = true ∧
    toDict (jsonLoad (toDict (mkNode [("b", Value.vdict [("x", Value.vint 10)]),
        ("a", Value.vint 1)])))
      = toDict (mkNode [("b", Value.vdict [("x", Value.vint 10)]), ("a", Value.vint 1)]) ∧
    ∃ r, pyLoad 2 (toDict (mkNode [("b", Value.vdict [("x", Value.vint 10)]),
        ("a", Value.vint 1)])) = Except.ok r ∧
      ∀ k, lookupF (toDict r) k =
        lookupF (toDict (mkNode [("b", Value.vdict [("x", Value.vint 10)]),
          ("a", Value.vint 1)])) k := by
  have h1 : toDict (mkNode [("b", Value.vdict [("x", Value.vint 10)]), ("a", Value.vint 1)])
      = [("b", Value.vdict [("x", Value.vint 10)]), ("a", Value.vint 1)] := by
    simp [mkNode, loadFromDict, setKey, toDict]
  have hclean : cleanV (Value.vdict (toDict (mkNode [("b", Value.vdict [("x", Value.vint 10)]),
      ("a", Value.vint 1)]))) = true := by
    rw [h1]
    simp [cleanV, cleanFs, hasKeyF, lookupF]
  refine ⟨hclean, (claim_C4_roundtrip _ hclean).1,
    (claim_C4_roundtrip _ hclean).2.2 ?_ ?_ ?_⟩
  · rw [h1]
    simp [keysOf]
  · rw [h1]
    intro k hk
    simp [keysOf] at hk
    rcases hk with h | h <;> subst h <;> decide
  · rw [h1]
    intro p hp
    simp only [List.mem_cons, List.not_mem_nil, or_false] at hp
    rcases hp with h | h <;> subst h <;> simp

/-- C4, counterexample to the claim as stated: the py round-trip of a node
with one explicitly null field loses that field, because the final merge
in `PyConfigurator.fromfile` skips None values. -/
theorem claim_C4_counter_py_null :
    toDict (mkNode [("a", Value.vnull)]) = [("a", Value.vnull)] ∧
    pyLoad 2 [("a", Value.vnull)] = Except.ok c4CounterLoaded ∧
    toDict c4CounterLoaded = [] ∧
    ([] : Fields) ≠ [("a", Value.vnull)] := by
  have hu : startsWithUnderscore "a" = false := rfl
  refine ⟨?_, ?_, ?_, ?_⟩
  · simp [mkNode, loadFromDict, setKey, toDict]
  · simp [c4CounterLoaded, pyLoad, fromfile, lookupF, baseEntries, loadBases,
      pyFilter, hu, sortAssigns, insertAssign, mkNode, loadFromDict, setKey,
      mergeF, Except.toOption]
  · simp [c4CounterLoaded, pyLoad, fromfile, lookupF, baseEntries, loadBases,
      pyFilter, hu, sortAssigns, insertAssign, mkNode, loadFromDict, setKey,
      mergeF, Except.toOption, toDict]
  · simp

end PJTools

namespace PJHeap

theorem getObj_setObj_self (σ : Store) (a : Nat) (fs : HFields) :
    getObj (setObj σ a fs) a = some fs := by
  simp [setObj, getObj]

theorem getObj_setObj_ne (σ : Store) (a b : Nat) (fs : HFields) (h : a ≠ b) :
    getObj (setObj σ a fs) b = getObj σ b := by
  simp [setObj, getObj, h]

theorem hLookup_hSetKey_ne (fs : HFields) (k k2 : String) (v : HValue) (h : k2 ≠ k) :
    hLookup (hSetKey fs k2 v) k = hLookup fs k := by
  induction fs with
  | nil => simp [hSetKey, hLookup, h]
  | cons p rest ih =>
    obtain ⟨k3, v3⟩ := p
    by_cases h3 : k3 = k2
    · simp [hSetKey, h3, hLookup, h]
    · simp only [hSetKey, h3, if_false]
      by_cases h4 : k3 = k
      · simp [hLookup, h4]
      · simp [hLookup, h4, ih]

theorem hLookup_mem_refsOfF (fs : HFields) (k : String) (a : Nat)
    (h : hLookup fs k = some (HValue.href a)) : a ∈ refsOfF fs := by
  induction fs with
  | nil => simp [hLookup] at h
  | cons p rest ih =>
    obtain ⟨k2, v2⟩ := p
    simp only [hLookup] at h
    by_cases h2 : k2 = k
    · rw [if_pos h2] at h
      injection h with h
      subst h
      simp [refsOfF, refsOfV]
    · rw [if_neg h2] at h
      simp [refsOfF, List.mem_append, ih h]

theorem entry_mem_refsOfF (fs : HFields) (k : String) (b : Nat)
    (h : (k, HValue.href b) ∈ fs) : b ∈ refsOfF fs := by
  induction fs with
  | nil => simp at h
  | cons p rest ih =>
    rcases List.mem_cons.mp h with h1 | h1
    · obtain ⟨k2, v2⟩ := p
      injection h1 with e1 e2
      subst e2
      simp [refsOfF, refsOfV]
    · obtain ⟨k2, v2⟩ := p
      simp [refsOfF, List.mem_append, ih h1]

theorem addrChildren_mem (al : Nat → Option (List Nat)) :
    ∀ (rs : List Nat) (ys : List Nat), addrChildren al rs = some ys →
      ∀ c ∈ rs, ∃ lc, al c = some lc ∧ lc.Sublist ys := by
  intro rs
  induction rs with
  | nil => intro ys _ c hc; simp at hc
  | cons a rest ih =>
    intro ys h c hc
    rw [addrChildren] at h
    cases h1 : al a with
    | none => rw [h1] at h; simp at h
    | some xs =>
      rw [h1] at h
      cases h2 : addrChildren al rest with
      | none => rw [h2] at h; simp at h
      | some ys0 =>
        rw [h2] at h
        simp only [Option.some.injEq] at h
        subst h
        rcases List.mem_cons.mp hc with h3 | h3
        · subst h3
          exact ⟨xs, h1, List.sublist_append_left xs ys0⟩
        · obtain ⟨lc, hlc, hsub⟩ := ih ys0 h2 c h3
          exact ⟨lc, hlc, hsub.trans (List.sublist_append_right xs ys0)⟩

theorem addrChildren_append (al : Nat → Option (List Nat)) :
    ∀ (rs1 rs2 : List Nat) (ys : List Nat),
      addrChildren al (rs1 ++ rs2) = some ys →
      ∃ y1 y2, addrChildren al rs1 = some y1 ∧ addrChildren al rs2 = some y2 ∧
        ys = y1 ++ y2 := by
  intro rs1
  induction rs1 with
  | nil =>
    intro rs2 ys h
    exact ⟨[], ys, rfl, h, rfl⟩
  | cons a rest ih =>
    intro rs2 ys h
    rw [List.cons_append, addrChildren] at h
    cases h1 : al a with
    | none => rw [h1] at h; simp at h
    | some xs =>
      rw [h1] at h
      cases h2 : addrChildren al (rest ++ rs2) with
      | none => rw [h2] at h; simp at h
      | some ys0 =>
        rw [h2] at h
        simp only [Option.some.injEq] at h
        subst h
        obtain ⟨y1, y2, hy1, hy2, hy⟩ := ih rs2 ys0 h2
        refine ⟨xs ++ y1, y2, ?_, hy2, by rw [hy, List.append_assoc]⟩
        rw [addrChildren, h1, hy1]

theorem addrList_decompose (fuel : Nat) (σ : Store) (a : Nat) (l : List Nat)
    (h : addrList (fuel+1) σ a = some l) :
    ∃ fs ys, getObj σ a = some fs ∧
      addrChildren (addrList fuel σ) (refsOfF fs) = some ys ∧ l = a :: ys := by
  rw [addrList] at h
  cases h1 : getObj σ a with
  | none => simp [h1] at h
  | some fs =>
    cases h2 : addrChildren (addrList fuel σ) (refsOfF fs) with
    | none => simp [h1, h2] at h
    | some ys =>
      simp only [h1, h2, Option.some.injEq] at h
      exact ⟨fs, ys, rfl, h2, h.symm⟩

theorem addrList_self_mem (fuel : Nat) (σ : Store) (a : Nat) (l : List Nat)
    (h : addrList fuel σ a = some l) : a ∈ l := by
  cases fuel with
  | zero => simp [addrList] at h
  | succ fuel =>
    obtain ⟨fs, ys, _, _, hl⟩ := addrList_decompose fuel σ a l h
    rw [hl]
    exact List.mem_cons_self a ys

/-- C10, counterexample to the claim as stated: T at address 0 holds the
same child N (address 1) under two field names; S at address 2 is
completely disjoint from T; yet T.merge(S) mutates node 4, which lies
inside the substructure of S, and the mapping form of S changes. -/
theorem claim_C10_counter_merge_mutates_source :
    addrList 10 aliasStore 0 = some [0, 1, 1] ∧
    addrList 10 aliasStore 2 = some [2, 3, 4, 5, 6] ∧
    List.Disjoint [0, 1, 1] [2, 3, 4, 5, 6] ∧
    (mergeNode 10 aliasStore 0 2).isSome = true ∧
    toDictH 10 aliasStore 2 =
      some [("a", HValue.hdict [("x", HValue.hdict [("u", HValue.hint 1)])]),
            ("b", HValue.hdict [("x", HValue.hdict [("r", HValue.hint 2)])])] ∧
    toDictH 10 aliasMerged 2 =
      some [("a", HValue.hdict [("x", HValue.hdict [("u", HValue.hint 1),
              ("r", HValue.hint 2)])]),
            ("b", HValue.hdict [("x", HValue.hdict [("r", HValue.hint 2)])])] ∧
    toDictH 10 aliasMerged 2 ≠ toDictH 10 aliasStore 2 := by
  refine ⟨?_, ?_, ?_, ?_, ?_, ?_, ?_⟩
  · simp [addrList, aliasStore, getObj, refsOfF, refsOfV, addrChildren]
  · simp [addrList, aliasStore, getObj, refsOfF, refsOfV, addrChildren]
  · intro a ha hb
    simp at ha hb
    omega
  · simp [mergeNode, mergeFields, aliasStore, getObj, setObj, hLookup, hSetKey,
      hUpdateDict]
  · simp [toDictH, toDictFields, aliasStore, getObj]
  · simp [aliasMerged, mergeNode, mergeFields, aliasStore, getObj, setObj,
      hLookup, hSetKey, hUpdateDict, toDictH, toDictFields, Option.getD]
  · have h1 : toDictH 10 aliasMerged 2 =
        some [("a", HValue.hdict [("x", HValue.hdict [("u", HValue.hint 1),
                ("r", HValue.hint 2)])]),
              ("b", HValue.hdict [("x", HValue.hdict [("r", HValue.hint 2)])])] := by
      simp [aliasMerged, mergeNode, mergeFields, aliasStore, getObj, setObj,
        hLookup, hSetKey, hUpdateDict, toDictH, toDictFields, Option.getD]
    have h2 : toDictH 10 aliasStore 2 =
        some [("a", HValue.hdict [("x", HValue.hdict [("u", HValue.hint 1)])]),
              ("b", HValue.hdict [("x", HValue.hdict [("r", HValue.hint 2)])])] := by
      simp [toDictH, toDictFields, aliasStore, getObj]
    rw [h1, h2]
    simp

end PJHeap

namespace PJHeap

theorem addrChildren_congr (al1 al2 : Nat → Option (List Nat)) :
    ∀ (rs ys : List Nat),
      addrChildren al1 rs = some ys →
      (∀ c ∈ rs, ∀ lc, al1 c = some lc → al2 c = some lc) →
      addrChildren al2 rs = some ys := by
  intro rs
  induction rs with
  | nil => intro ys h _; exact h
  | cons a rest ih =>
    intro ys h hcc
    rw [addrChildren] at h
    cases h1 : al1 a with
    | none => simp [h1] at h
    | some xs =>
      cases h2 : addrChildren al1 rest with
      | none => simp [h1, h2] at h
      | some ys0 =>
        simp only [h1, h2, Option.some.injEq] at h
        have ha := hcc a (List.mem_cons_self a rest) xs h1
        have hr := ih ys0 h2 (fun c hc lc hl => hcc c (List.mem_cons_of_mem a hc) lc hl)
        simp [addrChildren, ha, hr, h]

theorem addrList_congr :
    ∀ (fuel : Nat) (σ1 σ2 : Store) (a : Nat) (l : List Nat),
      addrList fuel σ1 a = some l →
      (∀ x ∈ l, getObj σ2 x = getObj σ1 x) →
      addrList fuel σ2 a = some l := by
  intro fuel
  induction fuel with
  | zero => intro σ1 σ2 a l h _; simp [addrList] at h
  | succ fuel ih =>
    intro σ1 σ2 a l h hag
    obtain ⟨fs, ys, h1, h2, hl⟩ := addrList_decompose fuel σ1 a l h
    subst hl
    have ha : getObj σ2 a = some fs := by
      rw [hag a (List.mem_cons_self _ _), h1]
    have h2' : addrChildren (addrList fuel σ2) (refsOfF fs) = some ys := by
      refine addrChildren_congr _ _ _ _ h2 ?_
      intro c hc lc hlc
      obtain ⟨lc', hlc', hsub⟩ := addrChildren_mem (addrList fuel σ1) (refsOfF fs) ys h2 c hc
      rw [hlc] at hlc'
      injection hlc' with he
      subst he
      refine ih σ1 σ2 c lc hlc ?_
      intro x hx
      exact hag x (List.mem_cons_of_mem _ (hsub.subset hx))
    simp [addrList, ha, h2']

theorem toDictFields_congr (td1 td2 : Nat → Option HFields) :
    ∀ fs2 : HFields,
      (∀ p ∈ fs2, ∀ c, p.2 = HValue.href c → td2 c = td1 c) →
      toDictFields td2 fs2 = toDictFields td1 fs2 := by
  intro fs2
  induction fs2 with
  | nil => intro _; rfl
  | cons p rest ih =>
    intro hp
    obtain ⟨k, v⟩ := p
    have hrest := ih (fun p hp2 c hc => hp p (List.mem_cons_of_mem _ hp2) c hc)
    by_cases hk : k = "_is_initialized"
    · simp only [toDictFields, if_pos hk]
      exact hrest
    · cases v with
      | href c =>
        have hv := hp (k, HValue.href c) (List.mem_cons_self _ _) c rfl
        simp only [toDictFields, if_neg hk, hv, hrest]
      | hnull => simp only [toDictFields, if_neg hk, hrest]
      | hint n => simp only [toDictFields, if_neg hk, hrest]
      | hstr s => simp only [toDictFields, if_neg hk, hrest]
      | hbool b => simp only [toDictFields, if_neg hk, hrest]
      | hlist xs => simp only [toDictFields, if_neg hk, hrest]
      | hdict d => simp only [toDictFields, if_neg hk, hrest]

theorem toDictH_congr :
    ∀ (fa g : Nat) (σ1 σ2 : Store) (a : Nat) (l : List Nat),
      addrList fa σ1 a = some l →
      (∀ x ∈ l, getObj σ2 x = getObj σ1 x) →
      toDictH g σ2 a = toDictH g σ1 a := by
  intro fa
  induction fa with
  | zero => intro g σ1 σ2 a l h _; simp [addrList] at h
  | succ fa ih =>
    intro g σ1 σ2 a l h hag
    obtain ⟨fs, ys, h1, h2, hl⟩ := addrList_decompose fa σ1 a l h
    subst hl
    cases g with
    | zero => rfl
    | succ g =>
      have ha : getObj σ2 a = some fs := by
        rw [hag a (List.mem_cons_self _ _), h1]
      simp only [toDictH, ha, h1]
      refine toDictFields_congr _ _ fs ?_
      intro p hp c hc
      obtain ⟨k, v⟩ := p
      simp only at hc
      subst hc
      have hcm : c ∈ refsOfF fs := entry_mem_refsOfF fs k c hp
      obtain ⟨lc, hlc, hsub⟩ := addrChildren_mem _ _ _ h2 c hcm
      refine ih g σ1 σ2 c lc hlc ?_
      intro x hx
      exact hag x (List.mem_cons_of_mem _ (hsub.subset hx))

theorem children_disjoint_of_nodup (al : Nat → Option (List Nat)) :
    ∀ (tf : HFields) (ys : List Nat),
      addrChildren al (refsOfF tf) = some ys → ys.Nodup →
      ∀ (k1 k2 : String) (c1 c2 : Nat) (lc1 lc2 : List Nat), k1 ≠ k2 →
        hLookup tf k1 = some (HValue.href c1) →
        hLookup tf k2 = some (HValue.href c2) →
        al c1 = some lc1 → al c2 = some lc2 →
        List.Disjoint lc1 lc2 := by
  intro tf
  induction tf with
  | nil =>
    intro ys _ _ k1 k2 c1 c2 lc1 lc2 _ h1
    simp [hLookup] at h1
  | cons p rest ih =>
    intro ys h hnd k1 k2 c1 c2 lc1 lc2 hk h1 h2 hal1 hal2
    obtain ⟨ke, ve⟩ := p
    simp only [refsOfF] at h
    obtain ⟨y1, y2, hy1, hy2, hys⟩ := addrChildren_append al _ _ ys h
    subst hys
    rw [List.nodup_append] at hnd
    obtain ⟨hnd1, hnd2, hdisj⟩ := hnd
    simp only [hLookup] at h1 h2
    by_cases he1 : ke = k1
    · rw [if_pos he1] at h1
      injection h1 with h1
      subst h1
      have hy1' : y1 = lc1 := by
        simp only [refsOfV] at hy1
        simp [addrChildren, hal1] at hy1
        exact hy1.symm
      have he2 : ¬ ke = k2 := by rw [he1]; exact hk
      rw [if_neg he2] at h2
      have hcm : c2 ∈ refsOfF rest := hLookup_mem_refsOfF rest k2 c2 h2
      obtain ⟨lc2', hlc2', hsub⟩ := addrChildren_mem al _ _ hy2 c2 hcm
      rw [hal2] at hlc2'
      injection hlc2' with he
      subst he
      intro a ha1 ha2
      exact hdisj (hy1' ▸ ha1) (hsub.subset ha2)
    · rw [if_neg he1] at h1
      by_cases he2 : ke = k2
      · rw [if_pos he2] at h2
        injection h2 with h2
        subst h2
        have hy1' : y1 = lc2 := by
          simp only [refsOfV] at hy1
          simp [addrChildren, hal2] at hy1
          exact hy1.symm
        have hcm : c1 ∈ refsOfF rest := hLookup_mem_refsOfF rest k1 c1 h1
        obtain ⟨lc1', hlc1', hsub⟩ := addrChildren_mem al _ _ hy2 c1 hcm
        rw [hal1] at hlc1'
        injection hlc1' with he
        subst he
        intro a ha1 ha2
        exact hdisj (hy1' ▸ ha2) (hsub.subset ha1)
      · rw [if_neg he2] at h2
        exact ih y2 hy2 hnd2 k1 k2 c1 c2 lc1 lc2 hk h1 h2 hal1 hal2

end PJHeap

namespace PJHeap

theorem mergeNode_frame :
    ∀ (fuel fa fb : Nat) (σ : Store) (t s : Nat) (lt ls : List Nat) (σ2 : Store),
      addrList fa σ t = some lt → lt.Nodup →
      addrList fb σ s = some ls →
      List.Disjoint lt ls →
      (∀ a ∈ ls, ∀ fs, getObj σ a = some fs → ((fs.map Prod.fst).Nodup)) →
      mergeNode fuel σ t s = some σ2 →
      ∀ x, ¬ x ∈ lt → getObj σ2 x = getObj σ x := by
  intro fuel
  induction fuel with
  | zero =>
    intro fa fb σ t s lt ls σ2 _ _ _ _ _ hm
    simp [mergeNode] at hm
  | succ fuel ihM =>
    intro fa fb σ t s lt ls σ2 hat hnd has hdisj hwfk hm
    cases fa with
    | zero => simp [addrList] at hat
    | succ fa =>
    cases fb with
    | zero => simp [addrList] at has
    | succ fb =>
    obtain ⟨tf0, ltl, ht0, hch, hlt⟩ := addrList_decompose fa σ t lt hat
    obtain ⟨sf0, lstl, hs0, hsch, hls⟩ := addrList_decompose fb σ s ls has
    subst hlt
    subst hls
    rw [List.nodup_cons] at hnd
    obtain ⟨htnotin, hndl⟩ := hnd
    simp only [mergeNode, hs0] at hm
    have SA : ∀ (k : String) (c : Nat), hLookup tf0 k = some (HValue.href c) →
        ∃ lc, addrList fa σ c = some lc ∧ lc.Sublist ltl := by
      intro k c hlk
      exact addrChildren_mem _ _ _ hch c (hLookup_mem_refsOfF tf0 k c hlk)
    have SB : ∀ (k1 k2 : String) (c1 c2 : Nat) (lc1 lc2 : List Nat), k1 ≠ k2 →
        hLookup tf0 k1 = some (HValue.href c1) →
        hLookup tf0 k2 = some (HValue.href c2) →
        addrList fa σ c1 = some lc1 → addrList fa σ c2 = some lc2 →
        List.Disjoint lc1 lc2 :=
      children_disjoint_of_nodup (addrList fa σ) tf0 ltl hch hndl
    have SD : ∀ p ∈ sf0, ∀ b : Nat, p.2 = HValue.href b →
        ∃ lb, addrList fb σ b = some lb ∧ ∀ x ∈ lb, x ∈ (s :: lstl) := by
      intro p hp b hb
      obtain ⟨k, v⟩ := p
      simp only at hb
      subst hb
      obtain ⟨lb, hlb, hsubb⟩ := addrChildren_mem _ _ _ hsch b (entry_mem_refsOfF sf0 k b hp)
      exact ⟨lb, hlb, fun x hx => List.mem_cons_of_mem _ (hsubb.subset hx)⟩
    have SG : (sf0.map Prod.fst).Nodup := hwfk s (List.mem_cons_self _ _) sf0 hs0
    have inner : ∀ rem : HFields,
        (∀ p ∈ rem, p ∈ sf0) →
        ((rem.map Prod.fst).Nodup) →
        ∀ σc : Store,
          (∀ x, ¬ x ∈ (t :: ltl) → getObj σc x = getObj σ x) →
          (∃ tfc, getObj σc t = some tfc ∧
            ∀ k ∈ rem.map Prod.fst, hLookup tfc k = hLookup tf0 k) →
          (∀ k ∈ rem.map Prod.fst, ∀ (c : Nat) (lc : List Nat),
            hLookup tf0 k = some (HValue.href c) → addrList fa σ c = some lc →
            ∀ x ∈ lc, getObj σc x = getObj σ x) →
          ∀ σr : Store, mergeFields (mergeNode fuel) t σc rem = some σr →
          ∀ x, ¬ x ∈ (t :: ltl) → getObj σr x = getObj σ x := by
      intro rem
      induction rem with
      | nil =>
        intro _ _ σc H1 _ _ σr hmf x hx
        simp only [mergeFields, Option.some.injEq] at hmf
        subst hmf
        exact H1 x hx
      | cons p rem' ih =>
        intro hsub hndk σc H1 H2 H3 σr hmf x hx
        obtain ⟨k, v⟩ := p
        obtain ⟨tfc, htfc, hlkeq⟩ := H2
        simp only [List.map_cons, List.nodup_cons] at hndk
        obtain ⟨hknotin, hndk'⟩ := hndk
        have hwrite : ∀ w : HValue,
            mergeFields (mergeNode fuel) t (setObj σc t (hSetKey tfc k w)) rem'
              = some σr →
            getObj σr x = getObj σ x := by
          intro w hmf2
          refine ih (fun p hp => hsub p (List.mem_cons_of_mem _ hp)) hndk'
            (setObj σc t (hSetKey tfc k w)) ?_ ?_ ?_ σr hmf2 x hx
          · intro x2 hx2
            have hxt : ¬ x2 = t := fun he => hx2 (he ▸ List.mem_cons_self _ _)
            rw [getObj_setObj_ne σc t x2 _ (fun he => hxt he.symm)]
            exact H1 x2 hx2
          · refine ⟨hSetKey tfc k w, getObj_setObj_self _ _ _, ?_⟩
            intro k2 hk2
            have hkne : ¬ k = k2 := fun he => hknotin (he ▸ hk2)
            rw [hLookup_hSetKey_ne tfc k2 k w hkne]
            exact hlkeq k2 (List.mem_cons_of_mem _ hk2)
          · intro k2 hk2 c lc hl0 halc x2 hx2lc
            have hxt : ¬ x2 = t := by
              intro he
              obtain ⟨lc0, hlc0, hsub0⟩ := SA k2 c hl0
              rw [halc] at hlc0
              injection hlc0 with he0
              subst he0
              exact htnotin (he ▸ hsub0.subset hx2lc)
            rw [getObj_setObj_ne σc t x2 _ (fun he => hxt he.symm)]
            exact H3 k2 (List.mem_cons_of_mem _ hk2) c lc hl0 halc x2 hx2lc
        cases v with
        | hnull =>
          simp only [mergeFields] at hmf
          exact ih (fun p hp => hsub p (List.mem_cons_of_mem _ hp)) hndk' σc H1
            ⟨tfc, htfc, fun k2 hk2 => hlkeq k2 (List.mem_cons_of_mem _ hk2)⟩
            (fun k2 hk2 => H3 k2 (List.mem_cons_of_mem _ hk2)) σr hmf x hx
        | href b =>
          simp only [mergeFields, htfc] at hmf
          cases hlk : hLookup tfc k with
          | none =>
            simp only [hlk] at hmf
            exact hwrite _ hmf
          | some tv =>
            cases tv with
            | href c =>
              simp only [hlk] at hmf
              have hk0 : hLookup tf0 k = some (HValue.href c) := by
                rw [← hlkeq k (List.mem_cons_self _ _)]
                exact hlk
              obtain ⟨lc, halc, hsubl⟩ := SA k c hk0
              have hagc : ∀ x2 ∈ lc, getObj σc x2 = getObj σ x2 :=
                H3 k (List.mem_cons_self _ _) c lc hk0 halc
              have halc2 : addrList fa σc c = some lc :=
                addrList_congr fa σ σc c lc halc hagc
              have hndlc : lc.Nodup := hndl.sublist hsubl
              have hpb : (k, HValue.href b) ∈ sf0 :=
                hsub (k, HValue.href b) (List.mem_cons_self _ _)
              obtain ⟨lb, halb, hlbin⟩ := SD (k, HValue.href b) hpb b rfl
              have hagls : ∀ x2 ∈ (s :: lstl), getObj σc x2 = getObj σ x2 := by
                intro x2 hxs
                refine H1 x2 ?_
                intro hxt2
                exact hdisj hxt2 hxs
              have halb2 : addrList fb σc b = some lb :=
                addrList_congr fb σ σc b lb halb (fun x2 hx2 => hagls x2 (hlbin x2 hx2))
              have hdisj2 : List.Disjoint lc lb := by
                intro a ha1 ha2
                exact hdisj (List.mem_cons_of_mem _ (hsubl.subset ha1)) (hlbin a ha2)
              have hwfk2 : ∀ a ∈ lb, ∀ fs, getObj σc a = some fs →
                  ((fs.map Prod.fst).Nodup) := by
                intro a ha fs hfs
                rw [hagls a (hlbin a ha)] at hfs
                exact hwfk a (hlbin a ha) fs hfs
              cases hmn : mergeNode fuel σc c b with
              | none => simp [hmn] at hmf
              | some σc2 =>
                simp only [hmn] at hmf
                have hframe := ihM fa fb σc c b lc lb σc2 halc2 hndlc halb2
                  hdisj2 hwfk2 hmn
                refine ih (fun p hp => hsub p (List.mem_cons_of_mem _ hp)) hndk'
                  σc2 ?_ ?_ ?_ σr hmf x hx
                · intro x2 hx2
                  have hx2lc : ¬ x2 ∈ lc :=
                    fun hh => hx2 (List.mem_cons_of_mem _ (hsubl.subset hh))
                  rw [hframe x2 hx2lc]
                  exact H1 x2 hx2
                · have htlc : ¬ t ∈ lc := fun hh => htnotin (hsubl.subset hh)
                  refine ⟨tfc, ?_, fun k2 hk2 => hlkeq k2 (List.mem_cons_of_mem _ hk2)⟩
                  rw [hframe t htlc]
                  exact htfc
                · intro k2 hk2 c2 lc2 hl02 halc3 x2 hx2
                  have hkne : k ≠ k2 := fun he => hknotin (he ▸ hk2)
                  have hdisj3 : List.Disjoint lc lc2 :=
                    SB k k2 c c2 lc lc2 hkne hk0 hl02 halc halc3
                  have hx2lc : ¬ x2 ∈ lc := fun hh => hdisj3 hh hx2
                  rw [hframe x2 hx2lc]
                  exact H3 k2 (List.mem_cons_of_mem _ hk2) c2 lc2 hl02 halc3 x2 hx2
            | hnull =>
              simp only [hlk] at hmf
              exact hwrite _ hmf
            | hint n =>
              simp only [hlk] at hmf
              exact hwrite _ hmf
            | hstr s2 =>
              simp only [hlk] at hmf
              exact hwrite _ hmf
            | hbool b2 =>
              simp only [hlk] at hmf
              exact hwrite _ hmf
            | hlist xs =>
              simp only [hlk] at hmf
              exact hwrite _ hmf
            | hdict d1 =>
              simp only [hlk] at hmf
              exact hwrite _ hmf
        | hint n =>
          simp only [mergeFields, htfc] at hmf
          cases hlk : hLookup tfc k with
          | none => simp only [hlk] at hmf; exact hwrite _ hmf
          | some tv => cases tv <;> (simp only [hlk] at hmf; exact hwrite _ hmf)
        | hstr s2 =>
          simp only [mergeFields, htfc] at hmf
          cases hlk : hLookup tfc k with
          | none => simp only [hlk] at hmf; exact hwrite _ hmf
          | some tv => cases tv <;> (simp only [hlk] at hmf; exact hwrite _ hmf)
        | hbool b2 =>
          simp only [mergeFields, htfc] at hmf
          cases hlk : hLookup tfc k with
          | none => simp only [hlk] at hmf; exact hwrite _ hmf
          | some tv => cases tv <;> (simp only [hlk] at hmf; exact hwrite _ hmf)
        | hlist xs =>
          simp only [mergeFields, htfc] at hmf
          cases hlk : hLookup tfc k with
          | none => simp only [hlk] at hmf; exact hwrite _ hmf
          | some tv => cases tv <;> (simp only [hlk] at hmf; exact hwrite _ hmf)
        | hdict d2 =>
          simp only [mergeFields, htfc] at hmf
          cases hlk : hLookup tfc k with
          | none => simp only [hlk] at hmf; exact hwrite _ hmf
          | some tv => cases tv <;> (simp only [hlk] at hmf; exact hwrite _ hmf)
    exact inner sf0 (fun p hp => hp) SG σ (fun x _ => rfl)
      ⟨tf0, ht0, fun k _ => rfl⟩
      (fun k _ c lc _ _ x _ => rfl) σ2 hm

end PJHeap

namespace PJHeap

/-- C10 (amended): merge only writes into its target provided the target
has no internally aliased substructure.  For every store in which the
substructure of T is duplicate-free (tree-shaped, per the data model's
exclusive-ownership invariant) and disjoint from the substructure of S,
running T.merge(S) leaves every object of S's substructure - in
particular S itself and its mapping form - unchanged.  (Without the
tree-shape condition the conclusion fails: see the counterexample, where
an internal alias inside T lets merge write into S's substructure.) -/
theorem claim_C10_merge_frame :
    ∀ (fuel fa fb g : Nat) (σ : Store) (t s : Nat) (lt ls : List Nat) (σ2 : Store),
      addrList fa σ t = some lt → lt.Nodup →
      addrList fb σ s = some ls →
      List.Disjoint lt ls →
      (∀ a ∈ ls, ∀ fs, getObj σ a = some fs → ((fs.map Prod.fst).Nodup)) →
      mergeNode fuel σ t s = some σ2 →
      (∀ x ∈ ls, getObj σ2 x = getObj σ x) ∧
      getObj σ2 s = getObj σ s ∧ toDictH g σ2 s = toDictH g σ s := by
  intro fuel fa fb g σ t s lt ls σ2 hat hnd has hdisj hwfk hm
  have hframe := mergeNode_frame fuel fa fb σ t s lt ls σ2 hat hnd has hdisj hwfk hm
  have hag : ∀ x ∈ ls, getObj σ2 x = getObj σ x := by
    intro x hx
    refine hframe x ?_
    intro hxt
    exact hdisj hxt hx
  exact ⟨hag, hag s (addrList_self_mem fb σ s ls has),
    toDictH_congr fb g σ σ2 s ls has hag⟩

/-- C10, witness for the amended theorem. -/
theorem claim_C10_witness :
    addrList 5 frameStore 0 = some [0, 1] ∧
    ([0, 1] : List Nat).Nodup ∧
    addrList 5 frameStore 2 = some [2, 3] ∧
    List.Disjoint ([0, 1] : List Nat) [2, 3] ∧
    mergeNode 5 frameStore 0 2 = some frameMerged ∧
    getObj frameMerged 2 = getObj frameStore 2 ∧
    toDictH 5 frameMerged 2 = toDictH 5 frameStore 2 := by
  have h1 : addrList 5 frameStore 0 = some [0, 1] := by
    simp [addrList, frameStore, getObj, refsOfF, refsOfV, addrChildren]
  have h3 : addrList 5 frameStore 2 = some [2, 3] := by
    simp [addrList, frameStore, getObj, refsOfF, refsOfV, addrChildren]
  have hdj : List.Disjoint ([0, 1] : List Nat) [2, 3] := by
    intro a ha hb
    simp at ha hb
    omega
  have hwf : ∀ a ∈ ([2, 3] : List Nat), ∀ fs, getObj frameStore a = some fs →
      ((fs.map Prod.fst).Nodup) := by
    intro a ha fs hfs
    simp only [List.mem_cons, List.not_mem_nil, or_false] at ha
    rcases ha with rfl | rfl <;>
      (simp [frameStore, getObj] at hfs; subst hfs; decide)
  have h5 : mergeNode 5 frameStore 0 2 = some frameMerged := by
    simp [frameMerged, frameStore, mergeNode, mergeFields, getObj, setObj,
      hLookup, hSetKey, hUpdateDict, Option.getD]
  have happ := claim_C10_merge_frame 5 5 5 5 frameStore 0 2 [0, 1] [2, 3]
    frameMerged h1 (by decide) h3 hdj hwf h5
  exact ⟨h1, by decide, h3, hdj, h5, happ.2.1, happ.2.2⟩

end PJHeap
